import Mathlib

/-!
# jfifextract: marker scanning and block segmentation

A shallow embedding of `findNextJFIFHdr` and `processBuf` of `jfifextract.c`, together with
the two libc routines they call (`memchr`, `strncmp`).

Conventions of the embedding.

* The mapped input is a list of bytes `mem : List Nat`; a pointer is the index of a byte in
  `mem`, so the pointer `buf` handed to `processBuf` by `processFile` is `0` and `bufsize` is
  `mem.length`.  Reading an index outside `mem` is a failing read.
* `size_t` is 64 bits wide and `int` is 32 bits wide (LP64): `size_t` arithmetic is taken
  modulo `2^64`, and a value stored into an `int` is reduced to the signed 32 bit range
  (two's complement wrap, for the conversion of a pointer difference as well as for `++`).
* `dispatchBlock` is a function from its arguments, the two globals it reads and the answers
  of `creat` and `write` to the list of things it does; `printf` texts are character lists.
* The byte `JFIF_START[0]` searched for by `memchr` is written `0xff`; a pointer difference
  `p - buf` is only formed with `buf ≤ p`, so it is a natural number.
* Loops run on a fuel counter; the fuel supplied by the top level functions is shown to be
  sufficient, so the out-of-fuel outcome never shows up.
-/

namespace JfifExtract

/-! ## Machine integers -/

/-- Number of values of a `size_t` (64 bit). -/
def SIZE_MOD : Nat := 18446744073709551616

/-- Unsigned `size_t` subtraction `a - b`, wrapping modulo `2^64`. -/
def sizeSub (a b : Nat) : Nat := (a + (SIZE_MOD - b % SIZE_MOD)) % SIZE_MOD

/-- Conversion of a mathematical integer to `int` (signed 32 bit, two's complement wrap). -/
def toInt32 (x : Int) : Int := (x + 2147483648) % 4294967296 - 2147483648

/-- Conversion of an `int` to `size_t` (reduction modulo `2^64`). -/
def intToSize (x : Int) : Nat := (x % 18446744073709551616).toNat

/-! ## Data -/

/-- The constant `JFIF_START` (the string literal "\xff\xd8\xff\xe1"; its terminating NUL is
implicit: reading past the listed bytes yields `0`). -/
def JFIF_START : List Nat := [0xff, 0xd8, 0xff, 0xe1]

/-- Result of a pointer-returning routine. -/
inductive Found where
  /-- a non-NULL pointer, given as an index into the mapped bytes -/
  | ptr (p : Nat)
  /-- the NULL pointer -/
  | null
  /-- the routine read a byte outside the mapped bytes -/
  | fault
  /-- the loop counter of the embedding ran out -/
  | nofuel
  deriving DecidableEq, Repr

/-- One call `dispatchBlock(block, blksize, blknum)`. -/
structure Call where
  /-- the pointer `block` (offset of the block in the buffer) -/
  block : Nat
  /-- the `size_t blksize` argument -/
  blksize : Nat
  /-- the `int blknum` argument -/
  blknum : Int
  deriving DecidableEq, Repr

/-- How a run of `processBuf` ended. -/
inductive Status where
  /-- the function returned -/
  | done
  /-- a byte outside the mapped bytes was read -/
  | fault
  /-- the loop counter of the embedding ran out -/
  | nofuel
  deriving DecidableEq, Repr

/-- Observable behaviour of `processBuf`: the calls to `dispatchBlock`, in call order, and the
way the run ended. -/
structure Run where
  /-- calls to `dispatchBlock`, first call first -/
  calls : List Call
  /-- the way the run ended -/
  status : Status
  deriving DecidableEq, Repr

/-! ## libc routines -/

/-- `memchr(s, c, n)`: scan `n` bytes from `s` for the byte `c`. -/
def memchr (mem : List Nat) (s c : Nat) : Nat → Found
  | 0 => Found.null
  | n + 1 =>
    match mem[s]? with
    | none => Found.fault
    | some b => if b = c then Found.ptr s else memchr mem (s + 1) c n

/-- `strncmp(s1, s2, n)` with `s1` a pointer into the mapped bytes and `s2` a string constant:
compares at most `n` characters as unsigned bytes and stops after a NUL.  The result is the
difference of the first differing pair (or `0`); `none` is a failing read. -/
def strncmp (mem : List Nat) (s1 : Nat) (s2 : List Nat) : Nat → Option Int
  | 0 => some 0
  | n + 1 =>
    match mem[s1]? with
    | none => none
    | some a =>
      let b := s2.headD 0
      if a ≠ b then some ((a : Int) - (b : Int))
      else if a = 0 then some 0
      else strncmp mem (s1 + 1) s2.tail n

/-! ## `findNextJFIFHdr` -/

/-- The `while(strncmp(nextchr, JFIF_START, 4)!=0)` loop of `findNextJFIFHdr`, entered with the
current candidate `nextchr`. -/
def findLoop (mem : List Nat) (buf bufsize : Nat) : Nat → Nat → Found
  | 0, _ => Found.nofuel
  | fuel + 1, nextchr =>
    match strncmp mem nextchr JFIF_START 4 with
    | none => Found.fault
    | some r =>
      if r ≠ 0 then
        match memchr mem (nextchr + 1) 0xff (sizeSub bufsize (nextchr + 1 - buf)) with
        | Found.ptr n =>
          if sizeSub bufsize (n - buf) < 4 then Found.null
          else findLoop mem buf bufsize fuel n
        | Found.null => Found.null
        | Found.fault => Found.fault
        | Found.nofuel => Found.nofuel
      else Found.ptr nextchr

/-- `findNextJFIFHdr(buf, bufsize)`: pointer to the next marker, NULL if none. -/
def findNextJFIFHdr (mem : List Nat) (buf bufsize : Nat) : Found :=
  match memchr mem buf 0xff bufsize with
  | Found.ptr nextchr =>
    if sizeSub bufsize (nextchr - buf) < 4 then Found.null
    else findLoop mem buf bufsize bufsize nextchr
  | Found.null => Found.null
  | Found.fault => Found.fault
  | Found.nofuel => Found.nofuel

/-! ## `processBuf` -/

/-- The `while(nextpos)` loop of `processBuf` followed by the final `dispatchBlock` call. -/
def processLoop (mem : List Nat) : Nat → Nat → Nat → Int → Found → Run
  | 0, _, _, _, _ => ⟨[], Status.nofuel⟩
  | fuel + 1, curpos, remain, found_count, nextpos =>
    match nextpos with
    | Found.ptr np =>
      let blocksize : Int := toInt32 ((np : Int) - (curpos : Int))
      let remain1 := sizeSub remain (intToSize blocksize)
      let rest := processLoop mem fuel np remain1 (toInt32 (found_count + 1))
        (findNextJFIFHdr mem (np + 4) (sizeSub remain1 4))
      ⟨⟨curpos, intToSize blocksize, found_count⟩ :: rest.calls, rest.status⟩
    | Found.null => ⟨[⟨curpos, remain, found_count⟩], Status.done⟩
    | Found.fault => ⟨[], Status.fault⟩
    | Found.nofuel => ⟨[], Status.nofuel⟩

/-- `processBuf(buf, bufsize)`. -/
def processBuf (mem : List Nat) (buf bufsize : Nat) : Run :=
  match findNextJFIFHdr mem buf bufsize with
  | Found.ptr curpos =>
    let remain := sizeSub bufsize (curpos - buf)
    processLoop mem bufsize curpos remain 0 (findNextJFIFHdr mem (curpos + 4) (sizeSub remain 4))
  | Found.null => ⟨[], Status.done⟩
  | Found.fault => ⟨[], Status.fault⟩
  | Found.nofuel => ⟨[], Status.nofuel⟩

/-! ## Specification vocabulary -/

/-- The four bytes at `p .. p+3` exist and are `FF D8 FF E1`. -/
def MarkerAt (mem : List Nat) (p : Nat) : Prop :=
  mem[p]? = some 0xff ∧ mem[p + 1]? = some 0xd8 ∧ mem[p + 2]? = some 0xff ∧
    mem[p + 3]? = some 0xe1

instance (mem : List Nat) (p : Nat) : Decidable (MarkerAt mem p) := by
  unfold MarkerAt; infer_instance


/-! ## Particular inputs -/

/-- A marker, `g` zero bytes, and a second marker: two markers `g + 4` bytes apart. -/
def gapBuf (g : Nat) : List Nat := JFIF_START ++ List.replicate g 0 ++ JFIF_START

/-- Two markers exactly `2^31` bytes apart (a buffer of `2^31 + 4` bytes). -/
def bigGapBuf : List Nat := gapBuf 2147483644

/-- The buffer made of `n` adjacent markers (`4 * n` bytes). -/
def manyMarkers : Nat → List Nat
  | 0 => []
  | n + 1 => JFIF_START ++ manyMarkers n

/-- Two markers exactly `2^32` bytes apart (a buffer of `2^32 + 4` bytes). -/
def wideGapBuf : List Nat := gapBuf 4294967292

/-! ## The searches made by `processBuf` -/

/-- The loop of `processBuf` once more, listing the pairs `(curpos, remain)` with which the
loop body calls `findNextJFIFHdr(curpos+4, remain-4)`; same steps and same fuel as
`processLoop`. -/
def scanLoop (mem : List Nat) : Nat → Nat → Nat → Found → List (Nat × Nat)
  | 0, _, _, _ => []
  | fuel + 1, curpos, remain, nextpos =>
    match nextpos with
    | Found.ptr np =>
      let blocksize : Int := toInt32 ((np : Int) - (curpos : Int))
      let remain1 := sizeSub remain (intToSize blocksize)
      (np, remain1) ::
        scanLoop mem fuel np remain1 (findNextJFIFHdr mem (np + 4) (sizeSub remain1 4))
    | Found.null => []
    | Found.fault => []
    | Found.nofuel => []

/-- The pairs `(curpos, remain)` of all calls `findNextJFIFHdr(curpos+4, remain-4)` made by
`processBuf(buf, bufsize)`: the one before the loop, then the one of each iteration. -/
def processBufScans (mem : List Nat) (buf bufsize : Nat) : List (Nat × Nat) :=
  match findNextJFIFHdr mem buf bufsize with
  | Found.ptr curpos =>
    let remain := sizeSub bufsize (curpos - buf)
    (curpos, remain) ::
      scanLoop mem bufsize curpos remain (findNextJFIFHdr mem (curpos + 4) (sizeSub remain 4))
  | Found.null => []
  | Found.fault => []
  | Found.nofuel => []

/-! ## Formatted output -/

/-- The character of the decimal digit `d`. -/
def digitChar (d : Nat) : Char := Char.ofNat (48 + d)

/-- Decimal digits of `n`, most significant first, put in front of `acc`; `fuel` bounds the
number of digits produced. -/
def decimalAux : Nat → Nat → List Char → List Char
  | 0, _, acc => acc
  | fuel + 1, n, acc =>
    if n < 10 then digitChar n :: acc
    else decimalAux fuel (n / 10) (digitChar (n % 10) :: acc)

/-- Decimal representation of a natural number below `10^20`. -/
def decimal (n : Nat) : List Char := decimalAux 20 n []

/-- The conversion `%d` applied to an `int`. -/
def fmtD (x : Int) : List Char :=
  if x < 0 then '-' :: decimal x.natAbs else decimal x.natAbs

/-- Left padding with `'0'` up to the width `w`. -/
def zeroPad (w : Nat) (s : List Char) : List Char := List.replicate (w - s.length) '0' ++ s

/-- The conversion `%05d` applied to an `int`: the sign, if any, comes first and counts in the
width of 5. -/
def fmt05d (x : Int) : List Char :=
  if x < 0 then '-' :: zeroPad 4 (decimal x.natAbs) else zeroPad 5 (decimal x.natAbs)

/-- The text that `sprintf(filename, "fnd%05d.jpg", blknum)` produces, without its NUL. -/
def fileName (blknum : Int) : List Char :=
  String.toList "fnd" ++ fmt05d blknum ++ String.toList ".jpg"

/-- The text of `printf("found JFIF data block #%d, with size %d\n", blknum, blksize)`.  The
second `%d` is handed the `size_t blksize`; it prints the low 32 bits of it as an `int`. -/
def reportText (blknum : Int) (blksize : Nat) : List Char :=
  String.toList "found JFIF data block #" ++ fmtD blknum ++ String.toList ", with size " ++
    fmtD (toInt32 (blksize : Int)) ++ [Char.ofNat 10]

/-- The text of `printf("writing %d bytes to %s\n", blksize, filename)`. -/
def writingText (blksize : Nat) (filename : List Char) : List Char :=
  String.toList "writing " ++ fmtD (toInt32 (blksize : Int)) ++ String.toList " bytes to " ++
    filename ++ [Char.ofNat 10]

/-- The number written by a string of decimal digits (used to read file names back). -/
def decVal (s : List Char) : Nat := s.foldl (fun a c => 10 * a + (c.toNat - 48)) 0

/-! ## `dispatchBlock` -/

/-- What the system answers during one call of `dispatchBlock`. -/
structure Env where
  /-- the value returned by `creat` -/
  fd : Int
  /-- the value returned by `write` -/
  written : Int
  deriving DecidableEq, Repr

/-- What one call of `dispatchBlock` does to the outside. -/
inductive Effect where
  /-- `printf` of a text -/
  | print (text : List Char)
  /-- `perror(whoami)` -/
  | perror
  /-- the message "only n bytes written" on `stderr`, with the file name and the number shown -/
  | shortWrite (name : List Char) (shown : Int)
  /-- `sprintf` stored `bytes` bytes, more than 16, in the 16 bytes of `filename`; what the
  call does after that is not followed -/
  | overrun (bytes : Nat)
  /-- `creat(name, 0644)` -/
  | creat (name : List Char)
  /-- `write(fd, block, blksize)` -/
  | write (fd : Int) (block blksize : Nat)
  /-- `close(fd)` -/
  | close (fd : Int)
  deriving DecidableEq, Repr

/-- `dispatchBlock(block, blksize, blknum)` under the globals `dry_run` and `verbosity`. -/
def dispatchBlock (dry_run verbosity : Int) (env : Env) (block blksize : Nat) (blknum : Int) :
    List Effect :=
  if dry_run ≠ 0 then
    [Effect.print (reportText blknum blksize)]
  else if blknum ≤ 99999999 then
    let filename := fileName blknum
    if 16 < filename.length + 1 then [Effect.overrun (filename.length + 1)]
    else
      (if verbosity > 0 then [Effect.print (writingText blksize filename)] else []) ++
      [Effect.creat filename] ++
      (if env.fd = 0 then [Effect.perror]
       else
        [Effect.write env.fd block blksize] ++
        (if env.written < 0 then [Effect.perror]
         else if env.written.toNat < blksize then
          [Effect.shortWrite filename (toInt32 env.written)]
         else []) ++
        [Effect.close env.fd])
  else []

/-! ## Machine arithmetic lemmas -/

theorem sizeSub_eq (a b : Nat) (ha : a < SIZE_MOD) (hb : b ≤ a) : sizeSub a b = a - b := by
  simp only [sizeSub, SIZE_MOD] at *
  omega

theorem sizeSub_lt (a b : Nat) : sizeSub a b < SIZE_MOD := by
  simp only [sizeSub, SIZE_MOD]
  omega

/-! ## `memchr` -/

theorem memchr_ptr (mem : List Nat) (c : Nat) :
    ∀ (n s p : Nat), memchr mem s c n = Found.ptr p →
      s ≤ p ∧ p < s + n ∧ mem[p]? = some c ∧ ∀ q, s ≤ q → q < p → mem[q]? ≠ some c := by
  intro n
  induction n with
  | zero => intro s p h; simp [memchr] at h
  | succ n ih =>
    intro s p h
    unfold memchr at h
    cases hb : mem[s]? with
    | none => simp [hb] at h
    | some b =>
      simp only [hb] at h
      by_cases hbc : b = c
      · simp only [hbc, if_true, Found.ptr.injEq] at h
        subst h
        refine ⟨Nat.le_refl _, by omega, by rw [hb, hbc], ?_⟩
        intro q h1 h2; omega
      · simp only [hbc, if_false] at h
        obtain ⟨h1, h2, h3, h4⟩ := ih (s + 1) p h
        refine ⟨by omega, by omega, h3, ?_⟩
        intro q hq1 hq2
        by_cases hqs : q = s
        · subst hqs; rw [hb]; simpa using hbc
        · exact h4 q (by omega) hq2

theorem memchr_null (mem : List Nat) (c : Nat) :
    ∀ (n s : Nat), memchr mem s c n = Found.null →
      ∀ q, s ≤ q → q < s + n → mem[q]? ≠ some c := by
  intro n
  induction n with
  | zero => intro s _ q h1 h2; omega
  | succ n ih =>
    intro s h q hq1 hq2
    unfold memchr at h
    cases hb : mem[s]? with
    | none => simp [hb] at h
    | some b =>
      simp only [hb] at h
      by_cases hbc : b = c
      · simp [hbc] at h
      · simp only [hbc, if_false] at h
        by_cases hqs : q = s
        · subst hqs; rw [hb]; simpa using hbc
        · exact ih (s + 1) h q (by omega) (by omega)

theorem memchr_ne_nofuel (mem : List Nat) (c : Nat) :
    ∀ (n s : Nat), memchr mem s c n ≠ Found.nofuel := by
  intro n
  induction n with
  | zero => intro s; simp [memchr]
  | succ n ih =>
    intro s
    unfold memchr
    cases hb : mem[s]? with
    | none => simp
    | some b =>
      by_cases hbc : b = c
      · simp [hbc]
      · simpa [hbc] using ih (s + 1)

theorem memchr_ne_fault (mem : List Nat) (c : Nat) :
    ∀ (n s : Nat), s + n ≤ mem.length → memchr mem s c n ≠ Found.fault := by
  intro n
  induction n with
  | zero => intro s _; simp [memchr]
  | succ n ih =>
    intro s hs
    unfold memchr
    cases hb : mem[s]? with
    | none =>
      rw [List.getElem?_eq_none_iff] at hb
      omega
    | some b =>
      by_cases hbc : b = c
      · simp [hbc]
      · simpa [hbc] using ih (s + 1) (by omega)

theorem memchr_fault_of_le (mem : List Nat) (s c n : Nat) (hs : mem.length ≤ s) (hn : 0 < n) :
    memchr mem s c n = Found.fault := by
  obtain ⟨m, rfl⟩ : ∃ m, n = m + 1 := ⟨n - 1, by omega⟩
  unfold memchr
  rw [List.getElem?_eq_none_iff.mpr hs]

/-! ## `strncmp` against the marker -/

theorem strncmp_marker_eq_zero_iff (mem : List Nat) (p : Nat) :
    strncmp mem p JFIF_START 4 = some 0 ↔ MarkerAt mem p := by
  unfold MarkerAt
  simp only [strncmp, JFIF_START, List.headD, List.tail, Nat.add_assoc, Nat.reduceAdd]
  cases h0 : mem[p]? with
  | none => simp
  | some a0 =>
    by_cases e0 : a0 = 255
    · subst e0
      cases h1 : mem[p + 1]? with
      | none => simp
      | some a1 =>
        by_cases e1 : a1 = 216
        · subst e1
          cases h2 : mem[p + 2]? with
          | none => simp
          | some a2 =>
            by_cases e2 : a2 = 255
            · subst e2
              cases h3 : mem[p + 3]? with
              | none => simp
              | some a3 =>
                by_cases e3 : a3 = 225
                · subst e3; simp
                · simp [e3]; omega
            · simp [e2]; omega
        · simp [e1]; omega
    · simp [e0]; omega

theorem strncmp_marker_ne_none (mem : List Nat) (p : Nat) (h : p + 4 ≤ mem.length) :
    strncmp mem p JFIF_START 4 ≠ none := by
  simp only [strncmp, JFIF_START, List.headD, List.tail, Nat.add_assoc, Nat.reduceAdd]
  have g0 : mem[p]? = some mem[p] := List.getElem?_eq_getElem (by omega)
  have g1 : mem[p + 1]? = some mem[p + 1] := List.getElem?_eq_getElem (by omega)
  have g2 : mem[p + 2]? = some mem[p + 2] := List.getElem?_eq_getElem (by omega)
  have g3 : mem[p + 3]? = some mem[p + 3] := List.getElem?_eq_getElem (by omega)
  rw [g0, g1, g2, g3]
  simp only []
  split_ifs <;> simp

theorem MarkerAt.bound {mem : List Nat} {p : Nat} (h : MarkerAt mem p) : p + 4 ≤ mem.length := by
  have h3 := h.2.2.2
  have : p + 3 < mem.length := by
    by_contra hc
    rw [List.getElem?_eq_none_iff.mpr (by omega)] at h3
    cases h3
  omega

/-! ## `findNextJFIFHdr` -/

theorem marker_first_byte {mem : List Nat} {q : Nat} (h : MarkerAt mem q) : mem[q]? = some 0xff :=
  h.1

theorem findLoop_spec (mem : List Nat) (buf bs : Nat) (hbs : bs < SIZE_MOD)
    (hN : buf + bs ≤ mem.length) :
    ∀ (fuel c : Nat), buf ≤ c → c + 4 ≤ buf + bs → buf + bs ≤ fuel + c + 3 →
      (∃ p, findLoop mem buf bs fuel c = Found.ptr p ∧ c ≤ p ∧ p + 4 ≤ buf + bs ∧
        MarkerAt mem p ∧ ∀ q, c ≤ q → q < p → ¬ MarkerAt mem q) ∨
      (findLoop mem buf bs fuel c = Found.null ∧
        ∀ q, c ≤ q → q + 4 ≤ buf + bs → ¬ MarkerAt mem q) := by
  intro fuel
  induction fuel with
  | zero => intro c _ h2 h3; omega
  | succ fuel ih =>
    intro c hc1 hc2 hc3
    unfold findLoop
    cases hs : strncmp mem c JFIF_START 4 with
    | none => exact absurd hs (strncmp_marker_ne_none mem c (by omega))
    | some r =>
      by_cases hr : r = 0
      · subst hr
        left
        refine ⟨c, by simp, Nat.le_refl _, hc2, (strncmp_marker_eq_zero_iff mem c).mp hs, ?_⟩
        intro q h1 h2; omega
      · have hnc : ¬ MarkerAt mem c := by
          intro hm
          rw [(strncmp_marker_eq_zero_iff mem c).mpr hm] at hs
          exact hr (Option.some.inj hs).symm
        have hsz : sizeSub bs (c + 1 - buf) = bs - (c + 1 - buf) :=
          sizeSub_eq _ _ hbs (by omega)
        simp only [hr, ne_eq, not_false_eq_true, if_true, hsz]
        cases hm : memchr mem (c + 1) 255 (bs - (c + 1 - buf)) with
        | ptr n =>
          obtain ⟨m1, m2, _, m4⟩ := memchr_ptr mem 255 _ _ _ hm
          have hsz2 : sizeSub bs (n - buf) = bs - (n - buf) := sizeSub_eq _ _ hbs (by omega)
          have hskip : ∀ q, c ≤ q → q < n → ¬ MarkerAt mem q := by
            intro q h1 h2 hq
            by_cases hqc : q = c
            · subst hqc; exact hnc hq
            · exact m4 q (by omega) h2 (marker_first_byte hq)
          simp only [hsz2]
          by_cases hlt : bs - (n - buf) < 4
          · right
            simp only [hlt, if_true, true_and]
            intro q h1 h2 hq
            by_cases hqn : q < n
            · exact hskip q h1 hqn hq
            · omega
          · simp only [hlt, if_false]
            rcases ih n (by omega) (by omega) (by omega) with ⟨p, e, p1, p2, p3, p4⟩ | ⟨e, p1⟩
            · left
              refine ⟨p, e, by omega, p2, p3, ?_⟩
              intro q h1 h2
              by_cases hqn : q < n
              · exact hskip q h1 hqn
              · exact p4 q (by omega) h2
            · right
              refine ⟨e, ?_⟩
              intro q h1 h2
              by_cases hqn : q < n
              · exact hskip q h1 hqn
              · exact p1 q (by omega) h2
        | null =>
          right
          refine ⟨rfl, ?_⟩
          intro q h1 h2 hq
          by_cases hqc : q = c
          · subst hqc; exact hnc hq
          · exact memchr_null mem 255 _ _ hm q (by omega) (by omega) (marker_first_byte hq)
        | fault => exact absurd hm (memchr_ne_fault mem 255 _ _ (by omega))
        | nofuel => exact absurd hm (memchr_ne_nofuel mem 255 _ _)

theorem findNextJFIFHdr_spec (mem : List Nat) (buf bs : Nat) (hbs : bs < SIZE_MOD)
    (hN : buf + bs ≤ mem.length) :
    (∃ p, findNextJFIFHdr mem buf bs = Found.ptr p ∧ buf ≤ p ∧ p + 4 ≤ buf + bs ∧
      MarkerAt mem p ∧ ∀ q, buf ≤ q → q < p → ¬ MarkerAt mem q) ∨
    (findNextJFIFHdr mem buf bs = Found.null ∧
      ∀ q, buf ≤ q → q + 4 ≤ buf + bs → ¬ MarkerAt mem q) := by
  unfold findNextJFIFHdr
  cases hm : memchr mem buf 255 bs with
  | ptr n =>
    obtain ⟨m1, m2, _, m4⟩ := memchr_ptr mem 255 _ _ _ hm
    have hsz2 : sizeSub bs (n - buf) = bs - (n - buf) := sizeSub_eq _ _ hbs (by omega)
    have hskip : ∀ q, buf ≤ q → q < n → ¬ MarkerAt mem q :=
      fun q h1 h2 hq => m4 q h1 h2 (marker_first_byte hq)
    simp only [hsz2]
    by_cases hlt : bs - (n - buf) < 4
    · right
      simp only [hlt, if_true, true_and]
      intro q h1 h2 hq
      by_cases hqn : q < n
      · exact hskip q h1 hqn hq
      · omega
    · simp only [hlt, if_false]
      rcases findLoop_spec mem buf bs hbs hN bs n (by omega) (by omega) (by omega) with
        ⟨p, e, p1, p2, p3, p4⟩ | ⟨e, p1⟩
      · left
        refine ⟨p, e, by omega, p2, p3, ?_⟩
        intro q h1 h2
        by_cases hqn : q < n
        · exact hskip q h1 hqn
        · exact p4 q (by omega) h2
      · right
        refine ⟨e, ?_⟩
        intro q h1 h2
        by_cases hqn : q < n
        · exact hskip q h1 hqn
        · exact p1 q (by omega) h2
  | null =>
    right
    refine ⟨rfl, ?_⟩
    intro q h1 h2 hq
    exact memchr_null mem 255 _ _ hm q h1 (by omega) (marker_first_byte hq)
  | fault => exact absurd hm (memchr_ne_fault mem 255 _ _ hN)
  | nofuel => exact absurd hm (memchr_ne_nofuel mem 255 _ _)

theorem findNextJFIFHdr_eq_ptr (mem : List Nat) (buf bs p : Nat) (hbs : bs < SIZE_MOD)
    (hN : buf + bs ≤ mem.length) (h1 : buf ≤ p) (h2 : p + 4 ≤ buf + bs) (h3 : MarkerAt mem p)
    (h4 : ∀ q, buf ≤ q → q < p → ¬ MarkerAt mem q) :
    findNextJFIFHdr mem buf bs = Found.ptr p := by
  rcases findNextJFIFHdr_spec mem buf bs hbs hN with ⟨r, e, r1, r2, r3, r4⟩ | ⟨_, n1⟩
  · have : r = p := by
      by_contra hne
      rcases Nat.lt_or_gt_of_ne hne with hlt | hgt
      · exact h4 r r1 hlt r3
      · exact r4 p h1 hgt h3
    rw [e, this]
  · exact absurd h3 (n1 p h1 h2)

theorem findNextJFIFHdr_eq_null (mem : List Nat) (buf bs : Nat) (hbs : bs < SIZE_MOD)
    (hN : buf + bs ≤ mem.length) (h : ∀ q, buf ≤ q → q + 4 ≤ buf + bs → ¬ MarkerAt mem q) :
    findNextJFIFHdr mem buf bs = Found.null := by
  rcases findNextJFIFHdr_spec mem buf bs hbs hN with ⟨r, _, r1, r2, r3, _⟩ | ⟨e, _⟩
  · exact absurd r3 (h r r1 r2)
  · exact e

theorem findLoop_ptr_sound (mem : List Nat) (buf bs : Nat) :
    ∀ (fuel c p : Nat), findLoop mem buf bs fuel c = Found.ptr p → c ≤ p ∧ MarkerAt mem p := by
  intro fuel
  induction fuel with
  | zero => intro c p h; simp [findLoop] at h
  | succ fuel ih =>
    intro c p h
    unfold findLoop at h
    cases hs : strncmp mem c JFIF_START 4 with
    | none => simp [hs] at h
    | some r =>
      simp only [hs] at h
      by_cases hr : r = 0
      · subst hr
        simp only [ne_eq, not_true_eq_false, if_false, Found.ptr.injEq] at h
        subst h
        exact ⟨Nat.le_refl _, (strncmp_marker_eq_zero_iff mem c).mp hs⟩
      · simp only [hr, ne_eq, not_false_eq_true, if_true] at h
        cases hm : memchr mem (c + 1) 255 (sizeSub bs (c + 1 - buf)) with
        | ptr n =>
          simp only [hm] at h
          have hn := (memchr_ptr mem 255 _ _ _ hm).1
          by_cases hlt : sizeSub bs (n - buf) < 4
          · simp [hlt] at h
          · simp only [hlt, if_false] at h
            have := ih n p h
            exact ⟨by omega, this.2⟩
        | null => simp [hm] at h
        | fault => simp [hm] at h
        | nofuel => simp [hm] at h

/-- Whatever the size argument, a pointer returned by `findNextJFIFHdr` is at or after `buf`
and points at a marker. -/
theorem findNextJFIFHdr_ptr_sound (mem : List Nat) (buf bs p : Nat)
    (h : findNextJFIFHdr mem buf bs = Found.ptr p) : buf ≤ p ∧ MarkerAt mem p := by
  unfold findNextJFIFHdr at h
  cases hm : memchr mem buf 255 bs with
  | ptr n =>
    simp only [hm] at h
    have hn := (memchr_ptr mem 255 _ _ _ hm).1
    by_cases hlt : sizeSub bs (n - buf) < 4
    · simp [hlt] at h
    · simp only [hlt, if_false] at h
      have := findLoop_ptr_sound mem buf bs bs n p h
      exact ⟨by omega, this.2⟩
  | null => simp [hm] at h
  | fault => simp [hm] at h
  | nofuel => simp [hm] at h

/-- C1: for a buffer of length `N` (a `size_t`) and a start offset `start ≤ N`, a position `p`
returned by `findNextJFIFHdr` on the suffix starting at `start` (size `N - start`) satisfies
`start ≤ p`, `p + 4 ≤ N`, the four bytes at `p` are `FF D8 FF E1`, and no position `q` with
`start ≤ q < p` carries those four bytes. -/
theorem findNextJFIFHdr_leftmost (mem : List Nat) (start p : Nat)
    (hN : mem.length < SIZE_MOD) (hs : start ≤ mem.length)
    (h : findNextJFIFHdr mem start (mem.length - start) = Found.ptr p) :
    start ≤ p ∧ p + 4 ≤ mem.length ∧ MarkerAt mem p ∧
      ∀ q, start ≤ q → q < p → ¬ MarkerAt mem q := by
  rcases findNextJFIFHdr_spec mem start (mem.length - start) (by omega) (by omega) with
    ⟨r, e, r1, r2, r3, r4⟩ | ⟨e, _⟩
  · rw [e] at h
    cases h
    exact ⟨r1, by omega, r3, r4⟩
  · rw [e] at h
    cases h

/-- Instance of C1 on `FF D8 FF FF D8 FF E1`: the search from offset 0 returns offset 3. -/
theorem findNextJFIFHdr_leftmost_witness :
    findNextJFIFHdr [0xff, 0xd8, 0xff, 0xff, 0xd8, 0xff, 0xe1] 0 7 = Found.ptr 3 ∧
      (0 ≤ 3 ∧ 3 + 4 ≤ [0xff, 0xd8, 0xff, 0xff, 0xd8, 0xff, 0xe1].length ∧
        MarkerAt [0xff, 0xd8, 0xff, 0xff, 0xd8, 0xff, 0xe1] 3 ∧
        ∀ q, 0 ≤ q → q < 3 → ¬ MarkerAt [0xff, 0xd8, 0xff, 0xff, 0xd8, 0xff, 0xe1] q) :=
  ⟨by decide,
    findNextJFIFHdr_leftmost [0xff, 0xd8, 0xff, 0xff, 0xd8, 0xff, 0xe1] 0 3 (by decide)
      (by decide) (by decide)⟩

/-- C2: for a buffer of length `N` (a `size_t`) and a start offset `start ≤ N`,
`findNextJFIFHdr` on the suffix starting at `start` returns NULL exactly when no position `p`
with `start ≤ p` and `p + 4 ≤ N` carries the bytes `FF D8 FF E1`; it returns NULL whenever
`N - start < 4`; and it always returns, either NULL or a pointer. -/
theorem findNextJFIFHdr_null_iff (mem : List Nat) (start : Nat)
    (hN : mem.length < SIZE_MOD) (hs : start ≤ mem.length) :
    (findNextJFIFHdr mem start (mem.length - start) = Found.null ↔
        ¬ ∃ p, start ≤ p ∧ p + 4 ≤ mem.length ∧ MarkerAt mem p) ∧
      (mem.length - start < 4 → findNextJFIFHdr mem start (mem.length - start) = Found.null) ∧
      (findNextJFIFHdr mem start (mem.length - start) = Found.null ∨
        ∃ p, findNextJFIFHdr mem start (mem.length - start) = Found.ptr p) := by
  have hsum : start + (mem.length - start) = mem.length := by omega
  rcases findNextJFIFHdr_spec mem start (mem.length - start) (by omega) (by omega) with
    ⟨r, e, r1, r2, r3, _⟩ | ⟨e, n1⟩
  · refine ⟨?_, ?_, Or.inr ⟨r, e⟩⟩
    · rw [e]
      constructor
      · intro h; cases h
      · intro h; exact absurd ⟨r, r1, by omega, r3⟩ h
    · intro hlt; omega
  · refine ⟨?_, fun _ => e, Or.inl e⟩
    constructor
    · rintro _ ⟨p, p1, p2, p3⟩
      exact n1 p p1 (by omega) p3
    · intro _; exact e

/-- Instance of C2 on the three bytes `FF D8 FF`. -/
theorem findNextJFIFHdr_null_iff_witness :
    (findNextJFIFHdr [0xff, 0xd8, 0xff] 0 3 = Found.null ↔
        ¬ ∃ p, 0 ≤ p ∧ p + 4 ≤ [0xff, 0xd8, 0xff].length ∧ MarkerAt [0xff, 0xd8, 0xff] p) ∧
      ([0xff, 0xd8, 0xff].length - 0 < 4 → findNextJFIFHdr [0xff, 0xd8, 0xff] 0 3 = Found.null) ∧
      (findNextJFIFHdr [0xff, 0xd8, 0xff] 0 3 = Found.null ∨
        ∃ p, findNextJFIFHdr [0xff, 0xd8, 0xff] 0 3 = Found.ptr p) :=
  findNextJFIFHdr_null_iff [0xff, 0xd8, 0xff] 0 (by decide) (by decide)

/-! ## Markers and concatenation -/

theorem MarkerAt_append_left (X Y : List Nat) (q : Nat) (h : q + 4 ≤ X.length) :
    MarkerAt (X ++ Y) q ↔ MarkerAt X q := by
  unfold MarkerAt
  rw [List.getElem?_append_left (by omega), List.getElem?_append_left (by omega),
    List.getElem?_append_left (by omega), List.getElem?_append_left (by omega)]

theorem MarkerAt_append_right (X Y : List Nat) (q : Nat) (h : X.length ≤ q) :
    MarkerAt (X ++ Y) q ↔ MarkerAt Y (q - X.length) := by
  unfold MarkerAt
  rw [List.getElem?_append_right (by omega), List.getElem?_append_right (by omega),
    List.getElem?_append_right (by omega), List.getElem?_append_right (by omega)]
  have e1 : q + 1 - X.length = q - X.length + 1 := by omega
  have e2 : q + 2 - X.length = q - X.length + 2 := by omega
  have e3 : q + 3 - X.length = q - X.length + 3 := by omega
  rw [e1, e2, e3]

theorem MarkerAt_JFIF_START_append (Y : List Nat) : MarkerAt (JFIF_START ++ Y) 0 := by
  simp [MarkerAt, JFIF_START]

/-- Two marker occurrences never overlap: the marker has no proper border. -/
theorem MarkerAt_unbordered {mem : List Nat} {a b : Nat} (ha : MarkerAt mem a)
    (hb : MarkerAt mem b) (h1 : a ≤ b) (h2 : b < a + 4) : a = b := by
  obtain ⟨a0, a1, a2, a3⟩ := ha
  obtain ⟨b0, b1, b2, b3⟩ := hb
  by_contra hne
  have hcases : b = a + 1 ∨ b = a + 2 ∨ b = a + 3 := by omega
  rcases hcases with e | e | e
  · subst e; rw [a1] at b0; simp at b0
  · subst e
    have : a + 2 + 1 = a + 3 := by omega
    rw [this, a3] at b1; simp at b1
  · subst e; rw [a3] at b0; simp at b0

/-! ## Machine arithmetic of `processBuf` -/

theorem blocksize_exact (np cur : Nat) (h1 : cur ≤ np) (h2 : np - cur < 2147483648) :
    intToSize (toInt32 ((np : Int) - (cur : Int))) = np - cur := by
  simp only [intToSize, toInt32]
  omega

theorem toInt32_succ_of_lt (k : Int) (h0 : 0 ≤ k) (h1 : k + 1 < 2147483648) :
    toInt32 (k + 1) = k + 1 := by
  simp only [toInt32]
  omega

/-! ## Unfolding `processLoop` -/

theorem processLoop_null (mem : List Nat) (fuel cur rem : Nat) (k : Int) (hf : 0 < fuel) :
    processLoop mem fuel cur rem k Found.null = ⟨[⟨cur, rem, k⟩], Status.done⟩ := by
  obtain ⟨f, rfl⟩ : ∃ f, fuel = f + 1 := ⟨fuel - 1, by omega⟩
  rfl

theorem processLoop_fault (mem : List Nat) (fuel cur rem : Nat) (k : Int) (hf : 0 < fuel) :
    processLoop mem fuel cur rem k Found.fault = ⟨[], Status.fault⟩ := by
  obtain ⟨f, rfl⟩ : ∃ f, fuel = f + 1 := ⟨fuel - 1, by omega⟩
  rfl

theorem processLoop_ptr (mem : List Nat) (fuel cur rem np : Nat) (k : Int) (hf : 0 < fuel) :
    processLoop mem fuel cur rem k (Found.ptr np) =
      ⟨⟨cur, intToSize (toInt32 ((np : Int) - (cur : Int))), k⟩ ::
          (processLoop mem (fuel - 1) np
            (sizeSub rem (intToSize (toInt32 ((np : Int) - (cur : Int)))))
            (toInt32 (k + 1))
            (findNextJFIFHdr mem (np + 4)
              (sizeSub (sizeSub rem (intToSize (toInt32 ((np : Int) - (cur : Int))))) 4))).calls,
        (processLoop mem (fuel - 1) np
            (sizeSub rem (intToSize (toInt32 ((np : Int) - (cur : Int)))))
            (toInt32 (k + 1))
            (findNextJFIFHdr mem (np + 4)
              (sizeSub (sizeSub rem (intToSize (toInt32 ((np : Int) - (cur : Int))))) 4))).status⟩ := by
  obtain ⟨f, rfl⟩ : ∃ f, fuel = f + 1 := ⟨fuel - 1, by omega⟩
  rfl

/-- With fuel left and a search that returned, the loop dispatches the current block first. -/
theorem processLoop_calls_cons (mem : List Nat) (fuel cur rem : Nat) (k : Int) (np : Found)
    (hf : 0 < fuel) (h : np = Found.null ∨ ∃ p, np = Found.ptr p) :
    ∃ len rest, (processLoop mem fuel cur rem k np).calls = ⟨cur, len, k⟩ :: rest := by
  rcases h with rfl | ⟨p, rfl⟩
  · exact ⟨rem, [], by rw [processLoop_null mem fuel cur rem k hf]⟩
  · rw [processLoop_ptr mem fuel cur rem p k hf]
    exact ⟨_, _, rfl⟩

/-- Every dispatched block starts at or after the current position. -/
theorem processLoop_block_ge (mem : List Nat) :
    ∀ (fuel cur rem : Nat) (k : Int) (np : Found),
      (∀ p, np = Found.ptr p → cur ≤ p) →
      ∀ c ∈ (processLoop mem fuel cur rem k np).calls, cur ≤ c.block := by
  intro fuel
  induction fuel with
  | zero => intro cur rem k np _ c hc; simp [processLoop] at hc
  | succ fuel ih =>
    intro cur rem k np hnp c hc
    cases np with
    | ptr p =>
      rw [processLoop_ptr mem (fuel + 1) cur rem p k (by omega)] at hc
      simp only [List.mem_cons] at hc
      rcases hc with rfl | hc
      · exact Nat.le_refl _
      · have hp := hnp p rfl
        have := ih p _ _ _ (fun p' hp' => by
          have := (findNextJFIFHdr_ptr_sound mem _ _ p' hp').1
          omega) c hc
        omega
    | null =>
      rw [processLoop_null mem (fuel + 1) cur rem k (by omega)] at hc
      simp only [List.mem_singleton] at hc
      subst hc
      exact Nat.le_refl _
    | fault =>
      rw [processLoop_fault mem (fuel + 1) cur rem k (by omega)] at hc
      simp at hc
    | nofuel => simp [processLoop] at hc

/-! ## Unfolding `processBuf` -/

theorem processBuf_of_ptr (mem : List Nat) (bs cur : Nat)
    (h : findNextJFIFHdr mem 0 bs = Found.ptr cur) :
    processBuf mem 0 bs =
      processLoop mem bs cur (sizeSub bs cur) 0
        (findNextJFIFHdr mem (cur + 4) (sizeSub (sizeSub bs cur) 4)) := by
  unfold processBuf
  rw [h]
  rfl

theorem processBuf_of_null (mem : List Nat) (bs : Nat)
    (h : findNextJFIFHdr mem 0 bs = Found.null) :
    processBuf mem 0 bs = ⟨[], Status.done⟩ := by
  unfold processBuf
  rw [h]

/-- The second search of `processBuf`, made with the exact remaining size, returns. -/
theorem find_after_returns (mem : List Nat) (cur : Nat) (hN : mem.length < SIZE_MOD)
    (hc : cur + 4 ≤ mem.length) :
    findNextJFIFHdr mem (cur + 4) (mem.length - cur - 4) = Found.null ∨
      ∃ p, findNextJFIFHdr mem (cur + 4) (mem.length - cur - 4) = Found.ptr p := by
  rcases findNextJFIFHdr_spec mem (cur + 4) (mem.length - cur - 4) (by omega) (by omega) with
    ⟨r, e, _⟩ | ⟨e, _⟩
  · exact Or.inr ⟨r, e⟩
  · exact Or.inl e

/-! ## The fuel is sufficient -/

theorem findLoop_ne_nofuel (mem : List Nat) (buf bs : Nat) (hbs : bs < SIZE_MOD) :
    ∀ (fuel c : Nat), buf ≤ c → c + 4 ≤ buf + bs → buf + bs ≤ fuel + c + 3 →
      findLoop mem buf bs fuel c ≠ Found.nofuel := by
  intro fuel
  induction fuel with
  | zero => intro c _ h2 h3; omega
  | succ fuel ih =>
    intro c hc1 hc2 hc3
    unfold findLoop
    cases hs : strncmp mem c JFIF_START 4 with
    | none => simp
    | some r =>
      by_cases hr : r = 0
      · simp [hr]
      · have hsz : sizeSub bs (c + 1 - buf) = bs - (c + 1 - buf) :=
          sizeSub_eq _ _ hbs (by omega)
        simp only [hr, ne_eq, not_false_eq_true, if_true, hsz]
        cases hm : memchr mem (c + 1) 255 (bs - (c + 1 - buf)) with
        | ptr n =>
          obtain ⟨m1, m2, _, _⟩ := memchr_ptr mem 255 _ _ _ hm
          have hsz2 : sizeSub bs (n - buf) = bs - (n - buf) := sizeSub_eq _ _ hbs (by omega)
          simp only [hsz2]
          by_cases hlt : bs - (n - buf) < 4
          · simp [hlt]
          · simp only [hlt, if_false]
            exact ih n (by omega) (by omega) (by omega)
        | null => simp
        | fault => simp
        | nofuel => exact absurd hm (memchr_ne_nofuel mem 255 _ _)

/-- Whatever the bytes and whatever `size_t` size it is given, `findNextJFIFHdr` does not run
out of fuel. -/
theorem findNextJFIFHdr_ne_nofuel (mem : List Nat) (buf bs : Nat) (hbs : bs < SIZE_MOD) :
    findNextJFIFHdr mem buf bs ≠ Found.nofuel := by
  unfold findNextJFIFHdr
  cases hm : memchr mem buf 255 bs with
  | ptr n =>
    obtain ⟨m1, m2, _, _⟩ := memchr_ptr mem 255 _ _ _ hm
    have hsz2 : sizeSub bs (n - buf) = bs - (n - buf) := sizeSub_eq _ _ hbs (by omega)
    simp only [hsz2]
    by_cases hlt : bs - (n - buf) < 4
    · simp [hlt]
    · simp only [hlt, if_false]
      exact findLoop_ne_nofuel mem buf bs hbs bs n (by omega) (by omega) (by omega)
  | null => simp
  | fault => simp
  | nofuel => exact absurd hm (memchr_ne_nofuel mem 255 _ _)

theorem processLoop_ne_nofuel (mem : List Nat) :
    ∀ (fuel cur rem : Nat) (k : Int) (bs : Nat), bs < SIZE_MOD → cur + 4 ≤ mem.length →
      mem.length - cur < 4 * fuel →
      (processLoop mem fuel cur rem k (findNextJFIFHdr mem (cur + 4) bs)).status ≠
        Status.nofuel := by
  intro fuel
  induction fuel with
  | zero => intro cur rem k bs _ h1 h2; omega
  | succ fuel ih =>
    intro cur rem k bs hbs h1 h2
    cases hf : findNextJFIFHdr mem (cur + 4) bs with
    | ptr p =>
      obtain ⟨p1, p2⟩ := findNextJFIFHdr_ptr_sound mem _ _ p hf
      have := p2.bound
      rw [processLoop_ptr _ _ _ _ _ _ (by omega)]
      exact ih p _ _ _ (sizeSub_lt _ _) (by omega) (by omega)
    | null => rw [processLoop_null _ _ _ _ _ (by omega)]; simp
    | fault => rw [processLoop_fault _ _ _ _ _ (by omega)]; simp
    | nofuel => exact absurd hf (findNextJFIFHdr_ne_nofuel mem _ _ hbs)

/-- Whatever the bytes of the buffer, the run of `processBuf` does not run out of fuel: the
list of calls of the embedding is the list of all calls made until `processBuf` returned or
read outside the buffer. -/
theorem processBuf_ne_nofuel (mem : List Nat) (hN : mem.length < SIZE_MOD) :
    (processBuf mem 0 mem.length).status ≠ Status.nofuel := by
  cases hf : findNextJFIFHdr mem 0 mem.length with
  | ptr p =>
    obtain ⟨_, p2⟩ := findNextJFIFHdr_ptr_sound mem _ _ p hf
    have := p2.bound
    rw [processBuf_of_ptr _ _ p hf]
    exact processLoop_ne_nofuel mem _ _ _ _ _ (sizeSub_lt _ _) (by omega) (by omega)
  | null => rw [processBuf_of_null _ _ hf]; simp
  | fault => unfold processBuf; rw [hf]; simp
  | nofuel => exact absurd hf (findNextJFIFHdr_ne_nofuel mem _ _ hN)

/-! ## Claims on particular buffer shapes -/

/-- C7: on a buffer `marker ++ filler` (of `size_t` length) whose only marker occurrence is the
one at offset 0, `processBuf` dispatches exactly one block, with offset 0, length
`4 + |filler|` and index 0, and returns. -/
theorem processBuf_single_marker (filler : List Nat)
    (hN : (JFIF_START ++ filler).length < SIZE_MOD)
    (hone : ∀ q, MarkerAt (JFIF_START ++ filler) q → q = 0) :
    processBuf (JFIF_START ++ filler) 0 (JFIF_START ++ filler).length =
      ⟨[⟨0, 4 + filler.length, 0⟩], Status.done⟩ := by
  have hlen : (JFIF_START ++ filler).length = 4 + filler.length := by
    simp [JFIF_START]; omega
  have h0 : MarkerAt (JFIF_START ++ filler) 0 := MarkerAt_JFIF_START_append filler
  have e1 : findNextJFIFHdr (JFIF_START ++ filler) 0 (JFIF_START ++ filler).length =
      Found.ptr 0 :=
    findNextJFIFHdr_eq_ptr _ 0 _ 0 hN (by omega) (Nat.le_refl _) (by omega) h0
      (by intro q _ h; omega)
  rw [processBuf_of_ptr _ _ 0 e1]
  have s1 : sizeSub (JFIF_START ++ filler).length 0 = (JFIF_START ++ filler).length := by
    rw [sizeSub_eq _ _ hN (by omega)]; omega
  have s2 : sizeSub (JFIF_START ++ filler).length 4 = (JFIF_START ++ filler).length - 4 :=
    sizeSub_eq _ _ hN (by omega)
  have e2 : findNextJFIFHdr (JFIF_START ++ filler) (0 + 4)
      ((JFIF_START ++ filler).length - 4) = Found.null :=
    findNextJFIFHdr_eq_null _ _ _ (by omega) (by omega)
      (by intro q h1 _ hq; have := hone q hq; omega)
  rw [s1, s2, e2, processLoop_null _ _ _ _ _ (by omega), hlen]

/-- Instance of C7 with no filler: the buffer `FF D8 FF E1` gives one block of length 4. -/
theorem processBuf_single_marker_witness :
    processBuf (JFIF_START ++ []) 0 (JFIF_START ++ []).length =
      ⟨[⟨0, 4 + ([] : List Nat).length, 0⟩], Status.done⟩ :=
  processBuf_single_marker [] (by decide)
    (by
      intro q h
      have := h.bound
      simp [JFIF_START] at this
      omega)

/-- C9: on a buffer `marker ++ marker ++ tail` (of `size_t` length) the first dispatched block
is `{offset 0, length 4}` (index 0) and the second dispatched block starts at offset 4
(index 1). -/
theorem processBuf_adjacent_markers (tail : List Nat)
    (hN : (JFIF_START ++ JFIF_START ++ tail).length < SIZE_MOD) :
    ∃ len rest,
      (processBuf (JFIF_START ++ JFIF_START ++ tail) 0
        (JFIF_START ++ JFIF_START ++ tail).length).calls =
        ⟨0, 4, 0⟩ :: ⟨4, len, 1⟩ :: rest := by
  have hlen : (JFIF_START ++ JFIF_START ++ tail).length = 8 + tail.length := by
    simp [JFIF_START]; omega
  have h0 : MarkerAt (JFIF_START ++ JFIF_START ++ tail) 0 := by
    rw [List.append_assoc]; exact MarkerAt_JFIF_START_append _
  have h4 : MarkerAt (JFIF_START ++ JFIF_START ++ tail) 4 := by
    rw [List.append_assoc, MarkerAt_append_right _ _ _ (by simp [JFIF_START])]
    exact MarkerAt_JFIF_START_append _
  have e1 : findNextJFIFHdr (JFIF_START ++ JFIF_START ++ tail) 0
      (JFIF_START ++ JFIF_START ++ tail).length = Found.ptr 0 :=
    findNextJFIFHdr_eq_ptr _ 0 _ 0 hN (by omega) (Nat.le_refl _) (by omega) h0
      (by intro q _ h; omega)
  rw [processBuf_of_ptr _ _ 0 e1]
  have s1 : sizeSub (JFIF_START ++ JFIF_START ++ tail).length 0 =
      (JFIF_START ++ JFIF_START ++ tail).length := by
    rw [sizeSub_eq _ _ hN (by omega)]; omega
  have s2 : sizeSub (JFIF_START ++ JFIF_START ++ tail).length 4 =
      (JFIF_START ++ JFIF_START ++ tail).length - 4 := sizeSub_eq _ _ hN (by omega)
  have e2 : findNextJFIFHdr (JFIF_START ++ JFIF_START ++ tail) (0 + 4)
      ((JFIF_START ++ JFIF_START ++ tail).length - 4) = Found.ptr 4 :=
    findNextJFIFHdr_eq_ptr _ _ _ 4 (by omega) (by omega) (by omega) (by omega) h4
      (by intro q h1 h2; omega)
  rw [s1, s2, e2, processLoop_ptr _ _ _ _ _ _ (by omega)]
  have b1 : intToSize (toInt32 (((4 : Nat) : Int) - ((0 : Nat) : Int))) = 4 := by
    rw [blocksize_exact 4 0 (by omega) (by omega)]
  have s3 : sizeSub ((JFIF_START ++ JFIF_START ++ tail).length - 4) 4 =
      (JFIF_START ++ JFIF_START ++ tail).length - 4 - 4 := sizeSub_eq _ _ (by omega) (by omega)
  have k1 : toInt32 (0 + 1) = 1 := by decide
  rw [b1, s2, s3, k1]
  obtain ⟨len, rest, e⟩ := processLoop_calls_cons (JFIF_START ++ JFIF_START ++ tail)
    ((JFIF_START ++ JFIF_START ++ tail).length - 1) 4
    ((JFIF_START ++ JFIF_START ++ tail).length - 4) 1
    (findNextJFIFHdr (JFIF_START ++ JFIF_START ++ tail) (4 + 4)
      ((JFIF_START ++ JFIF_START ++ tail).length - 4 - 4))
    (by omega) (find_after_returns _ 4 hN (by omega))
  exact ⟨len, rest, by rw [e]⟩

/-- Instance of C9 with an empty tail. -/
theorem processBuf_adjacent_markers_witness :
    ∃ len rest,
      (processBuf (JFIF_START ++ JFIF_START ++ []) 0
        (JFIF_START ++ JFIF_START ++ []).length).calls =
        ⟨0, 4, 0⟩ :: ⟨4, len, 1⟩ :: rest :=
  processBuf_adjacent_markers [] (by decide)

/-- C10: on a buffer `G ++ marker ++ tail` (of `size_t` length) where `G` contains no marker,
the first dispatched block starts at offset `|G|`, and no dispatched block covers a byte at an
offset below `|G|`; the run does not exhaust the loop counter of the embedding, so these are
all the blocks dispatched. -/
theorem processBuf_leading_garbage (G tail : List Nat)
    (hN : (G ++ JFIF_START ++ tail).length < SIZE_MOD) (hG : ∀ q, ¬ MarkerAt G q) :
    (∃ c rest, (processBuf (G ++ JFIF_START ++ tail) 0 (G ++ JFIF_START ++ tail).length).calls =
        c :: rest ∧ c.block = G.length) ∧
      (∀ c ∈ (processBuf (G ++ JFIF_START ++ tail) 0 (G ++ JFIF_START ++ tail).length).calls,
        ∀ i, c.block ≤ i → i < c.block + c.blksize → G.length ≤ i) ∧
      (processBuf (G ++ JFIF_START ++ tail) 0 (G ++ JFIF_START ++ tail).length).status ≠
        Status.nofuel := by
  have hfuel := processBuf_ne_nofuel (G ++ JFIF_START ++ tail) hN
  have hlen : (G ++ JFIF_START ++ tail).length = G.length + 4 + tail.length := by
    simp [JFIF_START]; omega
  have hg : MarkerAt (G ++ JFIF_START ++ tail) G.length := by
    rw [List.append_assoc, MarkerAt_append_right _ _ _ (Nat.le_refl _), Nat.sub_self]
    exact MarkerAt_JFIF_START_append _
  have hbefore : ∀ q, 0 ≤ q → q < G.length → ¬ MarkerAt (G ++ JFIF_START ++ tail) q := by
    intro q _ hq hm
    by_cases hin : q + 4 ≤ G.length
    · rw [List.append_assoc, MarkerAt_append_left _ _ _ hin] at hm
      exact hG q hm
    · have := MarkerAt_unbordered hm hg (by omega) (by omega)
      omega
  have e1 : findNextJFIFHdr (G ++ JFIF_START ++ tail) 0 (G ++ JFIF_START ++ tail).length =
      Found.ptr G.length :=
    findNextJFIFHdr_eq_ptr _ 0 _ G.length hN (by omega) (Nat.zero_le _) (by omega) hg hbefore
  rw [processBuf_of_ptr _ _ _ e1]
  have s1 : sizeSub (G ++ JFIF_START ++ tail).length G.length =
      (G ++ JFIF_START ++ tail).length - G.length := sizeSub_eq _ _ hN (by omega)
  have s2 : sizeSub ((G ++ JFIF_START ++ tail).length - G.length) 4 =
      (G ++ JFIF_START ++ tail).length - G.length - 4 := sizeSub_eq _ _ (by omega) (by omega)
  rw [processBuf_of_ptr _ _ _ e1] at hfuel
  rw [s1, s2] at hfuel ⊢
  refine ⟨?_, ?_, hfuel⟩
  · obtain ⟨len, rest, e⟩ := processLoop_calls_cons (G ++ JFIF_START ++ tail)
      (G ++ JFIF_START ++ tail).length G.length
      ((G ++ JFIF_START ++ tail).length - G.length) 0
      (findNextJFIFHdr (G ++ JFIF_START ++ tail) (G.length + 4)
        ((G ++ JFIF_START ++ tail).length - G.length - 4))
      (by omega) (find_after_returns _ G.length hN (by omega))
    exact ⟨_, rest, e, rfl⟩
  · intro c hc i h1 _
    have := processLoop_block_ge (G ++ JFIF_START ++ tail) _ _ _ _ _
      (fun p hp => by
        have := (findNextJFIFHdr_ptr_sound _ _ _ p hp).1
        omega) c hc
    omega

/-- Instance of C10 with `G = 00 FF` and `tail = 07`. -/
theorem processBuf_leading_garbage_witness :
    (∃ c rest, (processBuf ([0, 0xff] ++ JFIF_START ++ [7]) 0
        ([0, 0xff] ++ JFIF_START ++ [7]).length).calls = c :: rest ∧
        c.block = [0, 0xff].length) ∧
      (∀ c ∈ (processBuf ([0, 0xff] ++ JFIF_START ++ [7]) 0
          ([0, 0xff] ++ JFIF_START ++ [7]).length).calls,
        ∀ i, c.block ≤ i → i < c.block + c.blksize → [0, 0xff].length ≤ i) ∧
      (processBuf ([0, 0xff] ++ JFIF_START ++ [7]) 0
          ([0, 0xff] ++ JFIF_START ++ [7]).length).status ≠ Status.nofuel :=
  processBuf_leading_garbage [0, 0xff] [7] (by decide)
    (by
      intro q h
      have := h.bound
      simp at this)

/-- C8, as amended: on a buffer `marker ++ A ++ marker ++ B` (of `size_t` length) where neither
`A` nor `B` contains a marker and `4 + |A| < 2^31`, `processBuf` dispatches exactly the two
blocks `{0, 4 + |A|, 0}` and `{4 + |A|, 4 + |B|, 1}`, and returns. -/
theorem processBuf_two_markers (A B : List Nat)
    (hN : (JFIF_START ++ A ++ JFIF_START ++ B).length < SIZE_MOD)
    (hA : ∀ q, ¬ MarkerAt A q) (hB : ∀ q, ¬ MarkerAt B q)
    (ha : 4 + A.length < 2147483648) :
    processBuf (JFIF_START ++ A ++ JFIF_START ++ B) 0
        (JFIF_START ++ A ++ JFIF_START ++ B).length =
      ⟨[⟨0, 4 + A.length, 0⟩, ⟨4 + A.length, 4 + B.length, 1⟩], Status.done⟩ := by
  have hlen : (JFIF_START ++ A ++ JFIF_START ++ B).length = 8 + A.length + B.length := by
    simp [JFIF_START]; omega
  have hlen1 : (JFIF_START ++ A).length = 4 + A.length := by
    simp [JFIF_START]; omega
  have hlen2 : (JFIF_START ++ A ++ JFIF_START).length = 8 + A.length := by
    simp [JFIF_START]; omega
  have h0 : MarkerAt (JFIF_START ++ A ++ JFIF_START ++ B) 0 := by
    rw [List.append_assoc, List.append_assoc]; exact MarkerAt_JFIF_START_append _
  have h1 : MarkerAt (JFIF_START ++ A ++ JFIF_START ++ B) (4 + A.length) := by
    rw [List.append_assoc, MarkerAt_append_right _ _ _ (by omega), hlen1, Nat.sub_self]
    exact MarkerAt_JFIF_START_append _
  have hall : ∀ q, MarkerAt (JFIF_START ++ A ++ JFIF_START ++ B) q → q = 0 ∨ q = 4 + A.length := by
    intro q hq
    by_cases c1 : q < 4
    · left; exact (MarkerAt_unbordered h0 hq (by omega) (by omega)).symm
    · by_cases c2 : q + 4 ≤ 4 + A.length
      · exfalso
        have hq2 := hq
        rw [List.append_assoc, MarkerAt_append_left _ _ _ (by omega),
          MarkerAt_append_right _ _ _ (by simp [JFIF_START]; omega)] at hq2
        exact hA _ hq2
      · by_cases c3 : q < 4 + A.length
        · have := MarkerAt_unbordered hq h1 (by omega) (by omega)
          omega
        · by_cases c4 : q < 8 + A.length
          · right; exact (MarkerAt_unbordered h1 hq (by omega) (by omega)).symm
          · exfalso
            have hq2 := hq
            rw [MarkerAt_append_right _ _ _ (by omega)] at hq2
            exact hB _ hq2
  have e1 : findNextJFIFHdr (JFIF_START ++ A ++ JFIF_START ++ B) 0
      (JFIF_START ++ A ++ JFIF_START ++ B).length = Found.ptr 0 :=
    findNextJFIFHdr_eq_ptr _ 0 _ 0 hN (by omega) (Nat.le_refl _) (by omega) h0
      (by intro q _ h; omega)
  rw [processBuf_of_ptr _ _ 0 e1]
  have s1 : sizeSub (JFIF_START ++ A ++ JFIF_START ++ B).length 0 =
      (JFIF_START ++ A ++ JFIF_START ++ B).length := by
    rw [sizeSub_eq _ _ hN (by omega)]; omega
  have s2 : sizeSub (JFIF_START ++ A ++ JFIF_START ++ B).length 4 =
      (JFIF_START ++ A ++ JFIF_START ++ B).length - 4 := sizeSub_eq _ _ hN (by omega)
  have e2 : findNextJFIFHdr (JFIF_START ++ A ++ JFIF_START ++ B) (0 + 4)
      ((JFIF_START ++ A ++ JFIF_START ++ B).length - 4) = Found.ptr (4 + A.length) :=
    findNextJFIFHdr_eq_ptr _ _ _ _ (by omega) (by omega) (by omega) (by omega) h1
      (by
        intro q q1 q2 hq
        rcases hall q hq with h | h <;> omega)
  rw [s1, s2, e2, processLoop_ptr _ _ _ _ _ _ (by omega)]
  have b1 : intToSize (toInt32 (((4 + A.length : Nat) : Int) - ((0 : Nat) : Int))) =
      4 + A.length := by
    rw [blocksize_exact (4 + A.length) 0 (by omega) (by omega)]; omega
  have s3 : sizeSub (JFIF_START ++ A ++ JFIF_START ++ B).length (4 + A.length) =
      (JFIF_START ++ A ++ JFIF_START ++ B).length - (4 + A.length) :=
    sizeSub_eq _ _ hN (by omega)
  have s4 : sizeSub ((JFIF_START ++ A ++ JFIF_START ++ B).length - (4 + A.length)) 4 =
      (JFIF_START ++ A ++ JFIF_START ++ B).length - (4 + A.length) - 4 :=
    sizeSub_eq _ _ (by omega) (by omega)
  have k1 : toInt32 (0 + 1) = 1 := by decide
  have e3 : findNextJFIFHdr (JFIF_START ++ A ++ JFIF_START ++ B) (4 + A.length + 4)
      ((JFIF_START ++ A ++ JFIF_START ++ B).length - (4 + A.length) - 4) = Found.null :=
    findNextJFIFHdr_eq_null _ _ _ (by omega) (by omega)
      (by
        intro q q1 _ hq
        rcases hall q hq with h | h <;> omega)
  rw [b1, s3, s4, k1, e3, processLoop_null _ _ _ _ _ (by omega)]
  have : (JFIF_START ++ A ++ JFIF_START ++ B).length - (4 + A.length) = 4 + B.length := by
    omega
  rw [this]

/-- Instance of the amended C8 with `A = 01 02` and `B = 03`. -/
theorem processBuf_two_markers_witness :
    processBuf (JFIF_START ++ [1, 2] ++ JFIF_START ++ [3]) 0
        (JFIF_START ++ [1, 2] ++ JFIF_START ++ [3]).length =
      ⟨[⟨0, 4 + [1, 2].length, 0⟩, ⟨4 + [1, 2].length, 4 + [3].length, 1⟩], Status.done⟩ :=
  processBuf_two_markers [1, 2] [3] (by decide)
    (by intro q h; have := h.bound; simp at this)
    (by intro q h; have := h.bound; simp at this)
    (by decide)

/-! ## Two markers `2^31` or more bytes apart -/

theorem findNextJFIFHdr_fault_of_le (mem : List Nat) (buf bs : Nat) (h : mem.length ≤ buf)
    (hbs : 0 < bs) : findNextJFIFHdr mem buf bs = Found.fault := by
  unfold findNextJFIFHdr
  rw [memchr_fault_of_le mem buf 255 bs h hbs]

theorem gapBuf_length (g : Nat) : (gapBuf g).length = g + 8 := by
  simp [gapBuf, JFIF_START]

theorem gapBuf_marker_zero (g : Nat) : MarkerAt (gapBuf g) 0 := by
  unfold gapBuf
  rw [List.append_assoc]
  exact MarkerAt_JFIF_START_append _

theorem gapBuf_marker_second (g : Nat) : MarkerAt (gapBuf g) (g + 4) := by
  unfold gapBuf
  have hl : (JFIF_START ++ List.replicate g 0).length = g + 4 := by
    simp [JFIF_START]
  rw [MarkerAt_append_right _ _ _ (by omega), hl, Nat.sub_self]
  simpa using MarkerAt_JFIF_START_append []

theorem gapBuf_no_marker_between (g q : Nat) (h1 : 4 ≤ q) (h2 : q < g + 4) :
    ¬ MarkerAt (gapBuf g) q := by
  intro hm
  have hb := hm.1
  unfold gapBuf at hb
  have hl : (JFIF_START ++ List.replicate g 0).length = g + 4 := by
    simp [JFIF_START]
  rw [List.getElem?_append_left (by omega),
    List.getElem?_append_right (by simp [JFIF_START]; omega), List.getElem?_replicate] at hb
  have hl2 : JFIF_START.length = 4 := rfl
  rw [hl2] at hb
  have : q - 4 < g := by omega
  simp [this] at hb

/-- The run of `processBuf` on two markers `g + 4` bytes apart, `2^31 ≤ g + 4 < 2^32`: the
difference stored in `int blocksize` is negative, the block length passed on is
`2^64 - 2^32 + (g + 4)`, `remain` ends up `2^32` too large and the next search reads past the
end of the buffer. -/
theorem processBuf_gapBuf_wide (g : Nat) (h1 : 2147483648 ≤ g + 4) (h2 : g + 4 < 4294967296) :
    processBuf (gapBuf g) 0 (gapBuf g).length =
      ⟨[⟨0, 18446744069414584320 + (g + 4), 0⟩], Status.fault⟩ := by
  have hlen := gapBuf_length g
  have hN : (gapBuf g).length < SIZE_MOD := by
    rw [hlen]; simp only [SIZE_MOD]; omega
  have e1 : findNextJFIFHdr (gapBuf g) 0 (gapBuf g).length = Found.ptr 0 :=
    findNextJFIFHdr_eq_ptr _ 0 _ 0 hN (by omega) (Nat.le_refl _) (by omega)
      (gapBuf_marker_zero g) (by intro q _ h; omega)
  rw [processBuf_of_ptr _ _ 0 e1]
  have s1 : sizeSub (gapBuf g).length 0 = (gapBuf g).length := by
    rw [sizeSub_eq _ _ hN (by omega)]; omega
  have s2 : sizeSub (gapBuf g).length 4 = (gapBuf g).length - 4 := sizeSub_eq _ _ hN (by omega)
  have e2 : findNextJFIFHdr (gapBuf g) (0 + 4) ((gapBuf g).length - 4) = Found.ptr (g + 4) :=
    findNextJFIFHdr_eq_ptr _ _ _ _ (by omega) (by omega) (by omega) (by omega)
      (gapBuf_marker_second g)
      (by intro q q1 q2; exact gapBuf_no_marker_between g q (by omega) q2)
  rw [s1, s2, e2, processLoop_ptr _ _ _ _ _ _ (by omega)]
  have b1 : intToSize (toInt32 (((g + 4 : Nat) : Int) - ((0 : Nat) : Int))) =
      18446744069414584320 + (g + 4) := by
    simp only [intToSize, toInt32]
    omega
  have s3 : sizeSub (gapBuf g).length (18446744069414584320 + (g + 4)) = 4294967300 := by
    rw [hlen]
    simp only [sizeSub, SIZE_MOD]
    omega
  have s4 : sizeSub 4294967300 4 = 4294967296 := by decide
  have e3 : findNextJFIFHdr (gapBuf g) (g + 4 + 4) 4294967296 = Found.fault :=
    findNextJFIFHdr_fault_of_le _ _ _ (by omega) (by omega)
  rw [b1, s3, s4, e3, processLoop_fault _ _ _ _ _ (by omega)]

theorem bigGapBuf_length : bigGapBuf.length = 2147483652 := gapBuf_length 2147483644

/-- The run of `processBuf` on `bigGapBuf`. -/
theorem processBuf_bigGapBuf :
    processBuf bigGapBuf 0 bigGapBuf.length =
      ⟨[⟨0, 18446744071562067968, 0⟩], Status.fault⟩ :=
  processBuf_gapBuf_wide 2147483644 (by omega) (by omega)

/-! ## The two-marker shape, as stated -/

theorem replicate_zero_no_marker (g q : Nat) : ¬ MarkerAt (List.replicate g 0) q := by
  intro h
  have hb := h.1
  rw [List.getElem?_replicate] at hb
  by_cases hq : q < g
  · simp [hq] at hb
  · simp [hq] at hb

/-- C8 as stated fails.  With `A` empty and `B` the marker itself, the buffer
`marker ++ A ++ marker ++ B` yields three blocks, not two.  With `A` made of `2^31 - 4` zero
bytes and `B` empty, the only call carries the length `2^64 - 2^31` instead of `2^31`, and
the run ends in a read past the end of the buffer. -/
theorem processBuf_two_markers_counterexample :
    ((∀ q, ¬ MarkerAt ([] : List Nat) q) ∧
      processBuf (JFIF_START ++ [] ++ JFIF_START ++ JFIF_START) 0
          (JFIF_START ++ [] ++ JFIF_START ++ JFIF_START).length =
        ⟨[⟨0, 4, 0⟩, ⟨4, 4, 1⟩, ⟨8, 4, 2⟩], Status.done⟩ ∧
      (processBuf (JFIF_START ++ [] ++ JFIF_START ++ JFIF_START) 0
          (JFIF_START ++ [] ++ JFIF_START ++ JFIF_START).length).calls ≠
        [⟨0, 4 + ([] : List Nat).length, 0⟩,
          ⟨4 + ([] : List Nat).length, 4 + JFIF_START.length, 1⟩]) ∧
    ((∀ q, ¬ MarkerAt (List.replicate 2147483644 0) q) ∧
      processBuf (JFIF_START ++ List.replicate 2147483644 0 ++ JFIF_START ++ []) 0
          (JFIF_START ++ List.replicate 2147483644 0 ++ JFIF_START ++ []).length =
        ⟨[⟨0, 18446744071562067968, 0⟩], Status.fault⟩) := by
  refine ⟨⟨?_, by decide, by decide⟩, replicate_zero_no_marker _, ?_⟩
  · intro q h
    have := h.bound
    simp at this
  · rw [List.append_nil]
    exact processBuf_bigGapBuf

/-! ## Block numbers -/

theorem toInt32_idem (x : Int) : toInt32 (toInt32 x) = toInt32 x := by
  simp only [toInt32]
  omega

theorem toInt32_add_toInt32 (x y : Int) : toInt32 (toInt32 x + y) = toInt32 (x + y) := by
  simp only [toInt32]
  omega

/-- The `i`-th call made by the loop carries the `int` value of `found_count + i`. -/
theorem processLoop_blknum (mem : List Nat) :
    ∀ (fuel cur rem : Nat) (k : Int) (np : Found) (i : Nat) (c : Call),
      toInt32 k = k →
      (processLoop mem fuel cur rem k np).calls[i]? = some c →
      c.blknum = toInt32 (k + (i : Int)) := by
  intro fuel
  induction fuel with
  | zero => intro cur rem k np i c _ h; simp [processLoop] at h
  | succ fuel ih =>
    intro cur rem k np i c hk h
    cases np with
    | ptr p =>
      rw [processLoop_ptr mem (fuel + 1) cur rem p k (by omega)] at h
      cases i with
      | zero =>
        simp only [List.getElem?_cons_zero, Option.some.injEq] at h
        subst h
        simpa using hk.symm
      | succ i =>
        simp only [List.getElem?_cons_succ] at h
        have := ih _ _ _ _ i c (toInt32_idem _) h
        rw [this, toInt32_add_toInt32]
        congr 1
        push_cast
        omega
    | null =>
      rw [processLoop_null mem (fuel + 1) cur rem k (by omega)] at h
      cases i with
      | zero =>
        simp only [List.getElem?_cons_zero, Option.some.injEq] at h
        subst h
        simpa using hk.symm
      | succ i => simp at h
    | fault =>
      rw [processLoop_fault mem (fuel + 1) cur rem k (by omega)] at h
      simp at h
    | nofuel => simp [processLoop] at h

/-! ## Adjacent markers -/

theorem manyMarkers_length (n : Nat) : (manyMarkers n).length = 4 * n := by
  induction n with
  | zero => rfl
  | succ n ih =>
    simp only [manyMarkers, List.length_append, ih]
    simp [JFIF_START]
    omega

theorem manyMarkers_marker (n : Nat) : ∀ j, j < n → MarkerAt (manyMarkers n) (4 * j) := by
  induction n with
  | zero => intro j h; omega
  | succ n ih =>
    intro j hj
    cases j with
    | zero => exact MarkerAt_JFIF_START_append _
    | succ j =>
      show MarkerAt (JFIF_START ++ manyMarkers n) (4 * (j + 1))
      have hl : JFIF_START.length = 4 := rfl
      rw [MarkerAt_append_right _ _ _ (by omega)]
      have : 4 * (j + 1) - JFIF_START.length = 4 * j := by
        omega
      rw [this]
      exact ih j (by omega)

/-- On `n` adjacent markers the loop, standing at marker `j` with `m` markers after it, makes
`m + 1` calls. -/
theorem processLoop_manyMarkers_length (n : Nat) (hN : 4 * n < SIZE_MOD) :
    ∀ (m j fuel cur rem : Nat) (k : Int), j + m + 1 = n → cur = 4 * j → rem = 4 * (m + 1) →
      m < fuel →
      (processLoop (manyMarkers n) fuel cur rem k
        (findNextJFIFHdr (manyMarkers n) (cur + 4) (sizeSub rem 4))).calls.length = m + 1 := by
  have hlen := manyMarkers_length n
  intro m
  induction m with
  | zero =>
    intro j fuel cur rem k hj hcur hrem hf
    have s1 : sizeSub rem 4 = rem - 4 := sizeSub_eq _ _ (by omega) (by omega)
    have e : findNextJFIFHdr (manyMarkers n) (cur + 4) (rem - 4) = Found.null :=
      findNextJFIFHdr_eq_null _ _ _ (by omega) (by omega) (by intro q q1 q2; omega)
    rw [s1, e, processLoop_null _ _ _ _ _ hf]
    rfl
  | succ m ih =>
    intro j fuel cur rem k hj hcur hrem hf
    have s1 : sizeSub rem 4 = rem - 4 := sizeSub_eq _ _ (by omega) (by omega)
    have hm : MarkerAt (manyMarkers n) (cur + 4) := by
      have := manyMarkers_marker n (j + 1) (by omega)
      have e : cur + 4 = 4 * (j + 1) := by omega
      rw [e]; exact this
    have e : findNextJFIFHdr (manyMarkers n) (cur + 4) (rem - 4) = Found.ptr (cur + 4) :=
      findNextJFIFHdr_eq_ptr _ _ _ _ (by omega) (by omega) (Nat.le_refl _) (by omega) hm
        (by intro q q1 q2; omega)
    rw [s1, e, processLoop_ptr _ _ _ _ _ _ (by omega)]
    have b1 : intToSize (toInt32 (((cur + 4 : Nat) : Int) - (cur : Int))) = 4 := by
      rw [blocksize_exact (cur + 4) cur (by omega) (by omega)]; omega
    have s2 : sizeSub rem 4 = rem - 4 := s1
    simp only [b1, List.length_cons]
    have := ih (j + 1) (fuel - 1) (cur + 4) (sizeSub rem 4) (toInt32 (k + 1)) (by omega)
      (by omega) (by omega) (by omega)
    rw [this]

/-- On `n ≥ 1` adjacent markers `processBuf` makes `n` calls. -/
theorem processBuf_manyMarkers_length (n : Nat) (hn : 0 < n) (hN : 4 * n < SIZE_MOD) :
    (processBuf (manyMarkers n) 0 (manyMarkers n).length).calls.length = n := by
  have hlen := manyMarkers_length n
  have h0 : MarkerAt (manyMarkers n) 0 := manyMarkers_marker n 0 hn
  have e1 : findNextJFIFHdr (manyMarkers n) 0 (manyMarkers n).length = Found.ptr 0 :=
    findNextJFIFHdr_eq_ptr _ 0 _ 0 (by omega) (by omega) (Nat.le_refl _) (by omega) h0
      (by intro q _ h; omega)
  rw [processBuf_of_ptr _ _ 0 e1]
  have s1 : sizeSub (manyMarkers n).length 0 = (manyMarkers n).length := by
    rw [sizeSub_eq _ _ (by omega) (by omega)]; omega
  rw [s1]
  have := processLoop_manyMarkers_length n hN (n - 1) 0 (manyMarkers n).length 0
    (manyMarkers n).length 0 (by omega) (by omega) (by omega) (by omega)
  rw [this]
  omega

/-- The `i`-th call made by `processBuf` carries the `int` value of `i`. -/
theorem processBuf_blknum (mem : List Nat) (bs i : Nat) (c : Call)
    (h : (processBuf mem 0 bs).calls[i]? = some c) : c.blknum = toInt32 (i : Int) := by
  unfold processBuf at h
  cases hf : findNextJFIFHdr mem 0 bs with
  | ptr cur =>
    simp only [hf] at h
    have := processLoop_blknum mem _ _ _ _ _ i c (by decide) h
    simpa using this
  | null => simp [hf] at h
  | fault => simp [hf] at h
  | nofuel => simp [hf] at h

/-! ## Runs that break the contract -/

/-- C3 fails on `bigGapBuf`, two markers `2^31` bytes apart in a buffer of `2^31 + 4` bytes:
the leftmost marker is at offset 0 and the next one at offset `2^31`, yet the first block
passed to `dispatchBlock` has offset 0 and length `2^64 - 2^31`, so its offset + length is
neither the offset of the next marker nor at most `N`. -/
theorem processBuf_bigGap_partition :
    MarkerAt bigGapBuf 0 ∧ MarkerAt bigGapBuf 2147483648 ∧
      ∃ c rest, (processBuf bigGapBuf 0 bigGapBuf.length).calls = c :: rest ∧
        c.block = 0 ∧ c.blksize = 18446744071562067968 ∧
        c.block + c.blksize ≠ 2147483648 ∧ ¬ (c.block + c.blksize ≤ bigGapBuf.length) := by
  refine ⟨gapBuf_marker_zero _, gapBuf_marker_second 2147483644, ?_⟩
  rw [processBuf_bigGapBuf, bigGapBuf_length]
  exact ⟨_, _, rfl, rfl, rfl, by decide, by decide⟩

/-- C4 fails on `bigGapBuf`: offset `2^31` carries the marker, inside the buffer, and no
dispatched block starts there; the run ends in a read past the end of the buffer. -/
theorem processBuf_bigGap_marker_missed :
    2147483648 + 4 ≤ bigGapBuf.length ∧ MarkerAt bigGapBuf 2147483648 ∧
      (∀ c ∈ (processBuf bigGapBuf 0 bigGapBuf.length).calls, c.block ≠ 2147483648) ∧
      (processBuf bigGapBuf 0 bigGapBuf.length).status = Status.fault := by
  refine ⟨by rw [bigGapBuf_length], gapBuf_marker_second 2147483644, ?_, ?_⟩
  · rw [processBuf_bigGapBuf]
    intro c hc
    simp only [List.mem_singleton] at hc
    subst hc
    decide
  · rw [processBuf_bigGapBuf]

/-- C5 fails on `2^31 + 1` adjacent markers: the call number `2^31` (counting from 0) exists
and carries the block number `-2^31`, the value of the `int found_count` after it was
incremented past `2^31 - 1`. -/
theorem processBuf_manyMarkers_blknum :
    ∃ c, (processBuf (manyMarkers 2147483649) 0 (manyMarkers 2147483649).length).calls[2147483648]?
        = some c ∧ c.blknum = -2147483648 := by
  have hl := processBuf_manyMarkers_length 2147483649 (by omega) (by simp only [SIZE_MOD]; omega)
  have hi : 2147483648 <
      (processBuf (manyMarkers 2147483649) 0 (manyMarkers 2147483649).length).calls.length := by
    rw [hl]; omega
  refine ⟨_, List.getElem?_eq_getElem hi, ?_⟩
  rw [processBuf_blknum _ _ 2147483648 _ (List.getElem?_eq_getElem hi)]
  decide

/-- C6 fails on `bigGapBuf`: the buffer contains a marker, and the last block dispatched has
offset 0 and length `2^64 - 2^31`, which does not run to the end `N = 2^31 + 4` of the
buffer. -/
theorem processBuf_bigGap_last_block :
    MarkerAt bigGapBuf 0 ∧
      (processBuf bigGapBuf 0 bigGapBuf.length).calls.getLast? =
        some ⟨0, 18446744071562067968, 0⟩ ∧
      0 + 18446744071562067968 ≠ bigGapBuf.length := by
  refine ⟨gapBuf_marker_zero _, ?_, ?_⟩
  · rw [processBuf_bigGapBuf]
    rfl
  · rw [bigGapBuf_length]
    decide

/-! ## Buffers shorter than `2^31` bytes

On such a buffer no difference of two positions leaves the range of `int`, and the run of
`processBuf` is the segmentation the contract describes. -/

theorem processLoop_small (mem : List Nat) (hN : mem.length < 2147483648) :
    ∀ (fuel cur : Nat) (k : Int) (r : Run), MarkerAt mem cur → mem.length - cur < 4 * fuel →
      0 ≤ k → k + ((mem.length - cur : Nat) : Int) < 2147483648 →
      r = processLoop mem fuel cur (mem.length - cur) k
        (findNextJFIFHdr mem (cur + 4) (sizeSub (mem.length - cur) 4)) →
      r.status = Status.done ∧
      (∃ len rest, r.calls = ⟨cur, len, k⟩ :: rest) ∧
      List.Chain' (fun a b => a.block + a.blksize = b.block) r.calls ∧
      (∀ c, r.calls.getLast? = some c → c.block + c.blksize = mem.length) ∧
      (∀ c ∈ r.calls, MarkerAt mem c.block ∧ 4 ≤ c.blksize ∧
        c.block + c.blksize ≤ mem.length) ∧
      (∀ q, cur ≤ q → MarkerAt mem q → ∃ c ∈ r.calls, c.block = q) ∧
      (∀ (i : Nat) (c : Call), r.calls[i]? = some c → c.blknum = k + (i : Int)) := by
  intro fuel
  induction fuel with
  | zero => intro cur k r _ hf; omega
  | succ fuel ih =>
    intro cur k r hcur hf hk0 hk1 hr
    have hb := hcur.bound
    have hSM : mem.length < SIZE_MOD := by simp only [SIZE_MOD]; omega
    have s1 : sizeSub (mem.length - cur) 4 = mem.length - cur - 4 :=
      sizeSub_eq _ _ (by omega) (by omega)
    rw [s1] at hr
    rcases findNextJFIFHdr_spec mem (cur + 4) (mem.length - cur - 4) (by omega) (by omega) with
      ⟨p, e, p1, p2, p3, p4⟩ | ⟨e, n1⟩
    · have b1 : intToSize (toInt32 ((p : Int) - (cur : Int))) = p - cur :=
        blocksize_exact p cur (by omega) (by omega)
      have s2 : sizeSub (mem.length - cur) (p - cur) = mem.length - p := by
        rw [sizeSub_eq _ _ (by omega) (by omega)]; omega
      have k1 : toInt32 (k + 1) = k + 1 := toInt32_succ_of_lt k hk0 (by omega)
      rw [e, processLoop_ptr _ _ _ _ _ _ (by omega), b1, s2, k1, Nat.add_sub_cancel] at hr
      obtain ⟨i1, ⟨len, rest, i2⟩, i3, i4, i5, i6, i7⟩ :=
        ih p (k + 1) _ p3 (by omega) (by omega) (by omega) rfl
      subst hr
      simp only
      rw [i2] at i3 i4 i5 i6 i7 ⊢
      refine ⟨i1, ⟨_, _, rfl⟩, ?_, ?_, ?_, ?_, ?_⟩
      · rw [List.chain'_cons]
        exact ⟨by simp only; omega, i3⟩
      · intro c hc
        rw [List.getLast?_cons_cons] at hc
        exact i4 c hc
      · intro c hc
        rw [List.mem_cons] at hc
        rcases hc with rfl | hc
        · exact ⟨hcur, by simp only; omega, by simp only; omega⟩
        · exact i5 c hc
      · intro q q1 hq
        by_cases hqc : q = cur
        · exact ⟨_, List.mem_cons_self _ _, hqc.symm⟩
        · have hq4 : cur + 4 ≤ q := by
            by_contra hlt
            exact hqc (MarkerAt_unbordered hcur hq q1 (by omega)).symm
          have hqp : p ≤ q := by
            by_contra hlt
            exact p4 q hq4 (by omega) hq
          obtain ⟨c, c1, c2⟩ := i6 q hqp hq
          exact ⟨c, List.mem_cons_of_mem _ c1, c2⟩
      · intro i c hc
        cases i with
        | zero =>
          simp only [List.getElem?_cons_zero, Option.some.injEq] at hc
          subst hc; simp
        | succ i =>
          rw [List.getElem?_cons_succ] at hc
          rw [i7 i c hc]
          push_cast
          omega
    · rw [e, processLoop_null _ _ _ _ _ (by omega)] at hr
      subst hr
      refine ⟨rfl, ⟨_, _, rfl⟩, List.chain'_singleton _, ?_, ?_, ?_, ?_⟩
      · intro c hc
        simp only [List.getLast?_singleton, Option.some.injEq] at hc
        subst hc
        simp only; omega
      · intro c hc
        simp only [List.mem_singleton] at hc
        subst hc
        exact ⟨hcur, by simp only; omega, by simp only; omega⟩
      · intro q q1 hq
        by_cases hqc : q = cur
        · exact ⟨_, List.mem_singleton_self _, hqc.symm⟩
        · exfalso
          have hq4 : cur + 4 ≤ q := by
            by_contra hlt
            exact hqc (MarkerAt_unbordered hcur hq q1 (by omega)).symm
          have := hq.bound
          exact n1 q hq4 (by omega) hq
      · intro i c hc
        cases i with
        | zero =>
          simp only [List.getElem?_cons_zero, Option.some.injEq] at hc
          subst hc; simp
        | succ i => simp at hc

/-- On a buffer shorter than `2^31` bytes `processBuf` returns, and its calls to
`dispatchBlock` are the contiguous blocks that start at the marker occurrences: no call iff
no marker, the first block starts at the leftmost marker, each block ends where the next one
starts, the last one ends at `N`, every marker starts a block, and the `i`-th call carries
the block number `i`. -/
theorem processBuf_small (mem : List Nat) (hN : mem.length < 2147483648) (r : Run)
    (hr : r = processBuf mem 0 mem.length) :
    r.status = Status.done ∧
      (r.calls = [] ↔ ¬ ∃ q, MarkerAt mem q) ∧
      (∀ c, r.calls.head? = some c →
        MarkerAt mem c.block ∧ ∀ q, q < c.block → ¬ MarkerAt mem q) ∧
      List.Chain' (fun a b => a.block + a.blksize = b.block) r.calls ∧
      (∀ c, r.calls.getLast? = some c → c.block + c.blksize = mem.length) ∧
      (∀ c ∈ r.calls, MarkerAt mem c.block ∧ 4 ≤ c.blksize ∧
        c.block + c.blksize ≤ mem.length) ∧
      (∀ q, MarkerAt mem q → ∃ c ∈ r.calls, c.block = q) ∧
      (∀ (i : Nat) (c : Call), r.calls[i]? = some c → c.blknum = (i : Int)) := by
  have hSM : mem.length < SIZE_MOD := by simp only [SIZE_MOD]; omega
  rcases findNextJFIFHdr_spec mem 0 mem.length hSM (by omega) with
    ⟨p, e, _, p2, p3, p4⟩ | ⟨e, n1⟩
  · have s1 : sizeSub mem.length p = mem.length - p := sizeSub_eq _ _ hSM (by omega)
    rw [processBuf_of_ptr _ _ p e, s1] at hr
    obtain ⟨i1, ⟨len, rest, i2⟩, i3, i4, i5, i6, i7⟩ :=
      processLoop_small mem hN mem.length p 0 r p3 (by omega) (Int.le_refl 0) (by omega) hr
    refine ⟨i1, ?_, ?_, i3, i4, i5, ?_, ?_⟩
    · rw [i2]
      constructor
      · intro h; cases h
      · intro h; exact absurd ⟨p, p3⟩ h
    · intro c hc
      rw [i2] at hc
      simp only [List.head?_cons, Option.some.injEq] at hc
      subst hc
      exact ⟨p3, fun q hq => p4 q (Nat.zero_le _) hq⟩
    · intro q hq
      have hpq : p ≤ q := by
        by_contra hlt
        exact p4 q (Nat.zero_le _) (by omega) hq
      exact i6 q hpq hq
    · intro i c hc
      simpa using i7 i c hc
  · rw [processBuf_of_null _ _ e] at hr
    subst hr
    have hnone : ¬ ∃ q, MarkerAt mem q := by
      rintro ⟨q, hq⟩
      have := hq.bound
      exact n1 q (Nat.zero_le _) (by omega) hq
    refine ⟨rfl, ⟨fun _ => hnone, fun _ => rfl⟩, ?_, List.chain'_nil, ?_, ?_, ?_, ?_⟩
    · intro c hc; simp at hc
    · intro c hc; simp at hc
    · intro c hc; simp at hc
    · intro q hq; exact absurd ⟨q, hq⟩ hnone
    · intro i c hc; simp at hc

/-! ## Decimal conversion -/

theorem digitChar_toNat (d : Nat) (h : d < 10) : (digitChar d).toNat - 48 = d := by
  interval_cases d <;> decide

theorem decVal_foldl_acc (l : List Char) :
    ∀ a : Nat, l.foldl (fun a c => 10 * a + (c.toNat - 48)) a =
      a * 10 ^ l.length + l.foldl (fun a c => 10 * a + (c.toNat - 48)) 0 := by
  induction l with
  | nil => intro a; simp
  | cons c l ih =>
    intro a
    simp only [List.foldl_cons, List.length_cons]
    rw [ih (10 * a + (c.toNat - 48)), ih (10 * 0 + (c.toNat - 48))]
    ring

theorem decVal_cons (c : Char) (l : List Char) :
    decVal (c :: l) = (c.toNat - 48) * 10 ^ l.length + decVal l := by
  unfold decVal
  simp only [List.foldl_cons]
  rw [decVal_foldl_acc l]
  ring

theorem decVal_decimalAux :
    ∀ (fuel n : Nat) (acc : List Char), n < 10 ^ fuel → 0 < fuel →
      decVal (decimalAux fuel n acc) = n * 10 ^ acc.length + decVal acc := by
  intro fuel
  induction fuel with
  | zero => intro n acc _ h; omega
  | succ fuel ih =>
    intro n acc hn _
    unfold decimalAux
    by_cases h10 : n < 10
    · simp only [h10, if_true]
      rw [decVal_cons, digitChar_toNat n h10]
    · simp only [h10, if_false]
      have hf : 0 < fuel := by
        rcases Nat.eq_zero_or_pos fuel with h0 | h0
        · subst h0; simp at hn; omega
        · exact h0
      have hdiv : n / 10 < 10 ^ fuel := by
        rw [Nat.div_lt_iff_lt_mul (by omega)]
        rw [pow_succ] at hn
        exact hn
      rw [ih (n / 10) _ hdiv hf, decVal_cons, digitChar_toNat (n % 10) (Nat.mod_lt _ (by omega))]
      simp only [List.length_cons, pow_succ]
      have := Nat.div_add_mod n 10
      conv_rhs => rw [← this]
      ring

theorem decVal_decimal (n : Nat) (h : n < 10 ^ 20) : decVal (decimal n) = n := by
  unfold decimal
  rw [decVal_decimalAux 20 n [] h (by omega)]
  simp [decVal]

theorem decVal_zeroPad (w : Nat) (s : List Char) : decVal (zeroPad w s) = decVal s := by
  unfold zeroPad decVal
  rw [List.foldl_append]
  congr 1
  induction (w - s.length) with
  | zero => rfl
  | succ k ih => simpa [List.replicate_succ] using ih

theorem decimalAux_length :
    ∀ (fuel n : Nat) (acc : List Char) (k : Nat), n < 10 ^ k → 0 < k → k ≤ fuel →
      (decimalAux fuel n acc).length ≤ k + acc.length := by
  intro fuel
  induction fuel with
  | zero => intro n acc k _ h1 h2; omega
  | succ fuel ih =>
    intro n acc k hn hk hkf
    unfold decimalAux
    by_cases h10 : n < 10
    · simp only [h10, if_true, List.length_cons]; omega
    · simp only [h10, if_false]
      obtain ⟨j, rfl⟩ : ∃ j, k = j + 1 := ⟨k - 1, by omega⟩
      have hj : 0 < j := by
        rcases Nat.eq_zero_or_pos j with h0 | h0
        · subst h0; simp at hn; omega
        · exact h0
      have hdiv : n / 10 < 10 ^ j := by
        rw [Nat.div_lt_iff_lt_mul (by omega)]
        rw [pow_succ] at hn
        exact hn
      have := ih (n / 10) (digitChar (n % 10) :: acc) j hdiv hj (by omega)
      simp only [List.length_cons] at this
      omega

/-! ## File names -/

theorem fmt05d_nonneg (m : Int) (h : 0 ≤ m) : fmt05d m = zeroPad 5 (decimal m.natAbs) := by
  unfold fmt05d
  simp [not_lt.mpr h]

theorem decVal_fmt05d (m : Int) (h0 : 0 ≤ m) (h1 : m ≤ 99999999) :
    decVal (fmt05d m) = m.natAbs := by
  rw [fmt05d_nonneg m h0, decVal_zeroPad, decVal_decimal]
  omega

theorem zeroPad_length_le (w k : Nat) (s : List Char) (hs : s.length ≤ k) (hw : w ≤ k) :
    (zeroPad w s).length ≤ k := by
  unfold zeroPad
  simp only [List.length_append, List.length_replicate]
  omega

/-- For a block number in `0 .. 99999999` the file name and its NUL fit the 16 bytes of
`filename`. -/
theorem fileName_length_le (m : Int) (h0 : 0 ≤ m) (h1 : m ≤ 99999999) :
    (fileName m).length + 1 ≤ 16 := by
  have hd : (decimal m.natAbs).length ≤ 8 := by
    have := decimalAux_length 20 m.natAbs [] 8 (by omega) (by omega) (by omega)
    simpa [decimal] using this
  have hp := zeroPad_length_le 5 8 _ hd (by omega)
  unfold fileName
  rw [fmt05d_nonneg m h0]
  simp only [List.length_append]
  have e1 : (String.toList "fnd").length = 3 := by decide
  have e2 : (String.toList ".jpg").length = 4 := by decide
  omega

/-- In file-writing mode a block number in `0 .. 99999999` makes `dispatchBlock` create the
file `fileName blknum`. -/
theorem dispatchBlock_creates (v : Int) (env : Env) (b s : Nat) (m : Int) (h0 : 0 ≤ m)
    (h1 : m ≤ 99999999) : Effect.creat (fileName m) ∈ dispatchBlock 0 v env b s m := by
  have hl := fileName_length_le m h0 h1
  unfold dispatchBlock
  simp only [ne_eq, not_true_eq_false, if_false, h1, if_true]
  rw [if_neg (by omega)]
  simp

/-- For block numbers `m ≠ n`, both in `0 .. 99999999`, the file names formatted by
`"fnd%05d.jpg"` differ; these are the names of the files that `dispatchBlock` creates for `m`
and for `n`. -/
theorem fileName_injective (m n : Int) (hm0 : 0 ≤ m) (hm : m ≤ 99999999) (hn0 : 0 ≤ n)
    (hn : n ≤ 99999999) (hne : m ≠ n) :
    fileName m ≠ fileName n ∧
      (∀ (v : Int) (env : Env) (b s : Nat),
        Effect.creat (fileName m) ∈ dispatchBlock 0 v env b s m ∧
        Effect.creat (fileName n) ∈ dispatchBlock 0 v env b s n) := by
  refine ⟨?_, fun v env b s =>
    ⟨dispatchBlock_creates v env b s m hm0 hm, dispatchBlock_creates v env b s n hn0 hn⟩⟩
  intro h
  unfold fileName at h
  have h2 := List.append_cancel_left (List.append_cancel_right h)
  have h3 := congrArg decVal h2
  rw [decVal_fmt05d m hm0 hm, decVal_fmt05d n hn0 hn] at h3
  omega

/-- The file names of the block numbers 7 and 70 differ. -/
theorem fileName_injective_witness :
    fileName 7 ≠ fileName 70 ∧
      (∀ (v : Int) (env : Env) (b s : Nat),
        Effect.creat (fileName 7) ∈ dispatchBlock 0 v env b s 7 ∧
        Effect.creat (fileName 70) ∈ dispatchBlock 0 v env b s 70) :=
  fileName_injective 7 70 (by decide) (by decide) (by decide) (by decide) (by decide)

/-- C16 fails at the block number `-2147483648`, which passes the guard
`blknum <= 99999999`: the name is `fnd-2147483648.jpg`, 18 characters, so `sprintf` stores 19
bytes in the 16 bytes of `filename`. -/
theorem fileName_negative_overrun :
    (-2147483648 : Int) ≤ 99999999 ∧
      fileName (-2147483648) = String.toList "fnd-2147483648.jpg" ∧
      (fileName (-2147483648)).length + 1 = 19 ∧
      ∀ (v : Int) (env : Env) (b s : Nat),
        dispatchBlock 0 v env b s (-2147483648) = [Effect.overrun 19] := by
  refine ⟨by decide, by decide, by decide, ?_⟩
  intro v env b s
  rfl

/-! ## Blocks beyond the maximum, and dry runs -/

/-- C12, as amended: in file-writing mode a block number above `99999999` makes
`dispatchBlock` do nothing at all: no file is created or written, and nothing is printed or
reported. -/
theorem dispatchBlock_beyond_max (v : Int) (env : Env) (b s : Nat) (k : Int)
    (h : 99999999 < k) : dispatchBlock 0 v env b s k = [] := by
  unfold dispatchBlock
  simp only [ne_eq, not_true_eq_false, if_false]
  rw [if_neg (by omega)]

/-- Instance of the amended C12 at the block number `100000000`, with `verbosity` 1. -/
theorem dispatchBlock_beyond_max_witness :
    dispatchBlock 0 1 ⟨3, 10⟩ 0 10 100000000 = [] :=
  dispatchBlock_beyond_max 1 ⟨3, 10⟩ 0 10 100000000 (by decide)

/-- C12 as stated fails: in file-writing mode the block number `100000000` leaves no trace,
so no "too many blocks" condition is reported (while the block number `99999999` is acted
on). -/
theorem dispatchBlock_beyond_max_counterexample :
    dispatchBlock 0 0 ⟨3, 10⟩ 0 10 100000000 = [] ∧
      dispatchBlock 0 0 ⟨3, 10⟩ 0 10 99999999 =
        [Effect.creat (String.toList "fnd99999999.jpg"), Effect.write 3 0 10, Effect.close 3] := by
  constructor <;> decide

/-- In dry-run mode `dispatchBlock` prints one report and does nothing else, whatever the
block number; for a size below `2^31` the report shows the block number and the size. -/
theorem dispatchBlock_dry_run (d v : Int) (env : Env) (b s : Nat) (k : Int) (hd : d ≠ 0) :
    dispatchBlock d v env b s k = [Effect.print (reportText k s)] ∧
      (s < 2147483648 →
        reportText k s =
          String.toList "found JFIF data block #" ++ fmtD k ++ String.toList ", with size " ++
            fmtD (s : Int) ++ [Char.ofNat 10]) := by
  constructor
  · unfold dispatchBlock
    simp [hd]
  · intro hs
    unfold reportText
    have : toInt32 (s : Int) = (s : Int) := by
      simp only [toInt32]; omega
    rw [this]

/-- C13 fails at the size `2^31`: the dry-run report of block 0 with size `2147483648` reads
"found JFIF data block #0, with size -2147483648". -/
theorem dispatchBlock_dry_run_size :
    ∀ (v : Int) (env : Env) (b : Nat),
      dispatchBlock 1 v env b 2147483648 0 =
        [Effect.print
          (String.toList "found JFIF data block #0, with size -2147483648" ++ [Char.ofNat 10])] := by
  intro v env b
  rfl

/-! ## Short buffers, and the four-byte comparison -/

/-- C11: on a buffer of length 0, 1, 2 or 3, whatever its bytes, `processBuf` dispatches no
block and returns. -/
theorem processBuf_short (mem : List Nat) (h : mem.length < 4) :
    processBuf mem 0 mem.length = ⟨[], Status.done⟩ := by
  have hSM : mem.length < SIZE_MOD := by simp only [SIZE_MOD]; omega
  have e : findNextJFIFHdr mem 0 mem.length = Found.null :=
    findNextJFIFHdr_eq_null mem 0 mem.length hSM (by omega) (by intro q _ hq; omega)
  exact processBuf_of_null mem mem.length e

/-- Instance of C11 on the three bytes `FF D8 FF`. -/
theorem processBuf_short_witness :
    processBuf [0xff, 0xd8, 0xff] 0 [0xff, 0xd8, 0xff].length = ⟨[], Status.done⟩ :=
  processBuf_short [0xff, 0xd8, 0xff] (by decide)

/-- C20: for four bytes `b0 b1 b2 b3` at a candidate position (after any bytes `pre`, before
any bytes `post`), `strncmp(candidate, JFIF_START, 4)` reads inside the buffer, and it is `0`
exactly when `b0 b1 b2 b3` are `FF D8 FF E1`, zero bytes among them or not. -/
theorem strncmp_four_bytes (pre post : List Nat) (b0 b1 b2 b3 : Nat) :
    (strncmp (pre ++ [b0, b1, b2, b3] ++ post) pre.length JFIF_START 4 = some 0 ↔
        [b0, b1, b2, b3] = JFIF_START) ∧
      strncmp (pre ++ [b0, b1, b2, b3] ++ post) pre.length JFIF_START 4 ≠ none := by
  constructor
  · rw [strncmp_marker_eq_zero_iff, List.append_assoc,
      MarkerAt_append_right _ _ _ (Nat.le_refl _), Nat.sub_self]
    simp [MarkerAt, JFIF_START]
  · exact strncmp_marker_ne_none _ _ (by simp)

/-! ## The searches of `processBuf` -/

theorem scanLoop_ptr (mem : List Nat) (fuel cur rem np : Nat) (hf : 0 < fuel) :
    scanLoop mem fuel cur rem (Found.ptr np) =
      (np, sizeSub rem (intToSize (toInt32 ((np : Int) - (cur : Int))))) ::
        scanLoop mem (fuel - 1) np
          (sizeSub rem (intToSize (toInt32 ((np : Int) - (cur : Int)))))
          (findNextJFIFHdr mem (np + 4)
            (sizeSub (sizeSub rem (intToSize (toInt32 ((np : Int) - (cur : Int))))) 4)) := by
  obtain ⟨f, rfl⟩ : ∃ f, fuel = f + 1 := ⟨fuel - 1, by omega⟩
  rfl

theorem scanLoop_null (mem : List Nat) (fuel cur rem : Nat) :
    scanLoop mem fuel cur rem Found.null = [] := by
  cases fuel <;> rfl

theorem scanLoop_fault (mem : List Nat) (fuel cur rem : Nat) :
    scanLoop mem fuel cur rem Found.fault = [] := by
  cases fuel <;> rfl

theorem scanLoop_nofuel (mem : List Nat) (fuel cur rem : Nat) :
    scanLoop mem fuel cur rem Found.nofuel = [] := by
  cases fuel <;> rfl

theorem processBufScans_of_ptr (mem : List Nat) (bs cur : Nat)
    (h : findNextJFIFHdr mem 0 bs = Found.ptr cur) :
    processBufScans mem 0 bs =
      (cur, sizeSub bs cur) ::
        scanLoop mem bs cur (sizeSub bs cur)
          (findNextJFIFHdr mem (cur + 4) (sizeSub (sizeSub bs cur) 4)) := by
  unfold processBufScans
  rw [h]
  rfl

theorem processBufScans_of_null (mem : List Nat) (bs : Nat)
    (h : findNextJFIFHdr mem 0 bs = Found.null) : processBufScans mem 0 bs = [] := by
  unfold processBufScans
  rw [h]

/-- In a run that returns, the searches of the loop are made at the blocks dispatched after
the current one. -/
theorem scanLoop_blocks (mem : List Nat) :
    ∀ (fuel cur rem : Nat) (k : Int) (np : Found),
      (processLoop mem fuel cur rem k np).status = Status.done →
      cur :: (scanLoop mem fuel cur rem np).map Prod.fst =
        (processLoop mem fuel cur rem k np).calls.map Call.block := by
  intro fuel
  induction fuel with
  | zero => intro cur rem k np h; simp [processLoop] at h
  | succ fuel ih =>
    intro cur rem k np h
    cases np with
    | ptr p =>
      rw [processLoop_ptr _ _ _ _ _ _ (by omega)] at h ⊢
      rw [scanLoop_ptr _ _ _ _ _ (by omega)]
      simp only [List.map_cons, Nat.add_sub_cancel] at h ⊢
      rw [ih _ _ _ _ h]
    | null =>
      rw [processLoop_null _ _ _ _ _ (by omega), scanLoop_null]
      rfl
    | fault =>
      rw [processLoop_fault _ _ _ _ _ (by omega)] at h
      simp at h
    | nofuel => simp [processLoop] at h

/-- In a run that returns, `processBuf` makes one search `findNextJFIFHdr(curpos+4, remain-4)`
for each block it dispatches, with `curpos` at that block. -/
theorem processBufScans_blocks (mem : List Nat) (bs : Nat)
    (h : (processBuf mem 0 bs).status = Status.done) :
    (processBufScans mem 0 bs).map Prod.fst = (processBuf mem 0 bs).calls.map Call.block := by
  cases hf : findNextJFIFHdr mem 0 bs with
  | ptr p =>
    rw [processBuf_of_ptr _ _ p hf] at h ⊢
    rw [processBufScans_of_ptr _ _ p hf]
    simp only [List.map_cons]
    exact scanLoop_blocks mem _ _ _ _ _ h
  | null =>
    rw [processBuf_of_null _ _ hf, processBufScans_of_null _ _ hf]
    rfl
  | fault =>
    unfold processBuf at h
    rw [hf] at h
    simp at h
  | nofuel =>
    unfold processBuf at h
    rw [hf] at h
    simp at h

theorem scanLoop_small (mem : List Nat) (hN : mem.length < 2147483648) :
    ∀ (fuel cur : Nat), MarkerAt mem cur →
      ∀ s ∈ scanLoop mem fuel cur (mem.length - cur)
          (findNextJFIFHdr mem (cur + 4) (sizeSub (mem.length - cur) 4)),
        s.2 = mem.length - s.1 ∧ 4 ≤ s.2 ∧ s.1 + 4 ≤ mem.length := by
  intro fuel
  induction fuel with
  | zero => intro cur _ s hs; simp [scanLoop] at hs
  | succ fuel ih =>
    intro cur hcur s hs
    have hb := hcur.bound
    have s1 : sizeSub (mem.length - cur) 4 = mem.length - cur - 4 :=
      sizeSub_eq _ _ (by simp only [SIZE_MOD]; omega) (by omega)
    rw [s1] at hs
    rcases findNextJFIFHdr_spec mem (cur + 4) (mem.length - cur - 4)
        (by simp only [SIZE_MOD]; omega) (by omega) with ⟨p, e, p1, p2, p3, _⟩ | ⟨e, _⟩
    · have b1 : intToSize (toInt32 ((p : Int) - (cur : Int))) = p - cur :=
        blocksize_exact p cur (by omega) (by omega)
      have s2 : sizeSub (mem.length - cur) (p - cur) = mem.length - p := by
        rw [sizeSub_eq _ _ (by simp only [SIZE_MOD]; omega) (by omega)]; omega
      rw [e, scanLoop_ptr _ _ _ _ _ (by omega), b1, s2, Nat.add_sub_cancel] at hs
      rw [List.mem_cons] at hs
      rcases hs with rfl | hs
      · have := p3.bound
        exact ⟨rfl, by simp only; omega, by simp only; omega⟩
      · exact ih p p3 s hs
    · rw [e, scanLoop_null] at hs
      simp at hs

/-- C17: on a buffer of length `N < 2^31`, at every call
`findNextJFIFHdr(curpos+4, remain-4)` made by `processBuf` (the one before the loop and the
one of each iteration) `remain = N - curpos` and `remain ≥ 4`, so `remain - 4` does not wrap
and `curpos + 4 ≤ N`; there is one such call for each block dispatched, at that block. -/
theorem processBufScans_small (mem : List Nat) (hN : mem.length < 2147483648) :
    (∀ s ∈ processBufScans mem 0 mem.length,
        s.2 = mem.length - s.1 ∧ 4 ≤ s.2 ∧ sizeSub s.2 4 = s.2 - 4 ∧ s.1 + 4 ≤ mem.length) ∧
      (processBufScans mem 0 mem.length).map Prod.fst =
        (processBuf mem 0 mem.length).calls.map Call.block := by
  have hSM : mem.length < SIZE_MOD := by simp only [SIZE_MOD]; omega
  have hdone := (processBuf_small mem hN _ rfl).1
  refine ⟨?_, processBufScans_blocks mem mem.length hdone⟩
  have key : ∀ s ∈ processBufScans mem 0 mem.length,
      s.2 = mem.length - s.1 ∧ 4 ≤ s.2 ∧ s.1 + 4 ≤ mem.length := by
    intro s hs
    rcases findNextJFIFHdr_spec mem 0 mem.length hSM (by omega) with
      ⟨p, e, _, p2, p3, _⟩ | ⟨e, _⟩
    · have s1 : sizeSub mem.length p = mem.length - p := sizeSub_eq _ _ hSM (by omega)
      rw [processBufScans_of_ptr _ _ p e, s1, List.mem_cons] at hs
      rcases hs with rfl | hs
      · exact ⟨rfl, by simp only; omega, by simp only; omega⟩
      · exact scanLoop_small mem hN _ p p3 s hs
    · rw [processBufScans_of_null _ _ e] at hs
      simp at hs
  intro s hs
  obtain ⟨k1, k2, k3⟩ := key s hs
  exact ⟨k1, k2, sizeSub_eq _ _ (by omega) k2, k3⟩

/-- Instance of C17 on `marker ++ 01 ++ marker`. -/
theorem processBufScans_small_witness :
    (∀ s ∈ processBufScans (JFIF_START ++ [1] ++ JFIF_START) 0
          (JFIF_START ++ [1] ++ JFIF_START).length,
        s.2 = (JFIF_START ++ [1] ++ JFIF_START).length - s.1 ∧ 4 ≤ s.2 ∧
          sizeSub s.2 4 = s.2 - 4 ∧ s.1 + 4 ≤ (JFIF_START ++ [1] ++ JFIF_START).length) ∧
      (processBufScans (JFIF_START ++ [1] ++ JFIF_START) 0
          (JFIF_START ++ [1] ++ JFIF_START).length).map Prod.fst =
        (processBuf (JFIF_START ++ [1] ++ JFIF_START) 0
          (JFIF_START ++ [1] ++ JFIF_START).length).calls.map Call.block :=
  processBufScans_small (JFIF_START ++ [1] ++ JFIF_START) (by decide)

/-! ## The searches after a wide gap -/

/-- The searches of `processBuf` on two markers `g + 4` bytes apart, `2^31 ≤ g + 4 < 2^32`:
the second one is made with `remain = 2^32 + 4`. -/
theorem processBufScans_gapBuf_wide (g : Nat) (h1 : 2147483648 ≤ g + 4)
    (h2 : g + 4 < 4294967296) :
    processBufScans (gapBuf g) 0 (gapBuf g).length = [(0, g + 8), (g + 4, 4294967300)] := by
  have hlen := gapBuf_length g
  have hN : (gapBuf g).length < SIZE_MOD := by
    rw [hlen]; simp only [SIZE_MOD]; omega
  have e1 : findNextJFIFHdr (gapBuf g) 0 (gapBuf g).length = Found.ptr 0 :=
    findNextJFIFHdr_eq_ptr _ 0 _ 0 hN (by omega) (Nat.le_refl _) (by omega)
      (gapBuf_marker_zero g) (by intro q _ h; omega)
  rw [processBufScans_of_ptr _ _ 0 e1]
  have s1 : sizeSub (gapBuf g).length 0 = (gapBuf g).length := by
    rw [sizeSub_eq _ _ hN (by omega)]; omega
  have s2 : sizeSub (gapBuf g).length 4 = (gapBuf g).length - 4 := sizeSub_eq _ _ hN (by omega)
  have e2 : findNextJFIFHdr (gapBuf g) (0 + 4) ((gapBuf g).length - 4) = Found.ptr (g + 4) :=
    findNextJFIFHdr_eq_ptr _ _ _ _ (by omega) (by omega) (by omega) (by omega)
      (gapBuf_marker_second g)
      (by intro q q1 q2; exact gapBuf_no_marker_between g q (by omega) q2)
  rw [s1, s2, e2, scanLoop_ptr _ _ _ _ _ (by omega)]
  have b1 : intToSize (toInt32 (((g + 4 : Nat) : Int) - ((0 : Nat) : Int))) =
      18446744069414584320 + (g + 4) := by
    simp only [intToSize, toInt32]
    omega
  have s3 : sizeSub (gapBuf g).length (18446744069414584320 + (g + 4)) = 4294967300 := by
    rw [hlen]
    simp only [sizeSub, SIZE_MOD]
    omega
  have s4 : sizeSub 4294967300 4 = 4294967296 := by decide
  have e3 : findNextJFIFHdr (gapBuf g) (g + 4 + 4) 4294967296 = Found.fault :=
    findNextJFIFHdr_fault_of_le _ _ _ (by omega) (by omega)
  rw [b1, s3, s4, e3, scanLoop_fault, hlen]

/-- The searches of `processBuf` on `bigGapBuf`. -/
theorem processBufScans_bigGapBuf :
    processBufScans bigGapBuf 0 bigGapBuf.length =
      [(0, 2147483652), (2147483648, 4294967300)] :=
  processBufScans_gapBuf_wide 2147483644 (by omega) (by omega)

theorem bigGapBuf_no_marker_between (q : Nat) (h1 : 0 < q) (h2 : q < 2147483648) :
    ¬ MarkerAt bigGapBuf q := by
  intro hq
  by_cases h4 : q < 4
  · have := MarkerAt_unbordered (gapBuf_marker_zero 2147483644) hq (by omega) (by omega)
    omega
  · exact gapBuf_no_marker_between 2147483644 q (by omega) (by omega) hq

/-- C14 fails on `bigGapBuf` (`N = 2^31 + 4`): the run ends in a failing read.  The second
search is made with `curpos = 2^31` and `remain = 2^32 + 4`, so the byte range handed to
`memchr` starts at `N` and is `2^32` bytes long: its very first read is outside the buffer. -/
theorem processBuf_bigGap_failing_read :
    bigGapBuf.length = 2147483652 ∧
      (processBuf bigGapBuf 0 bigGapBuf.length).status = Status.fault ∧
      processBufScans bigGapBuf 0 bigGapBuf.length =
        [(0, 2147483652), (2147483648, 4294967300)] ∧
      sizeSub 4294967300 4 = 4294967296 ∧
      memchr bigGapBuf (2147483648 + 4) 0xff 4294967296 = Found.fault ∧
      findNextJFIFHdr bigGapBuf (2147483648 + 4) 4294967296 = Found.fault := by
  refine ⟨bigGapBuf_length, ?_, processBufScans_bigGapBuf, by decide, ?_, ?_⟩
  · rw [processBuf_bigGapBuf]
  · exact memchr_fault_of_le _ _ _ _ (by rw [bigGapBuf_length]) (by omega)
  · exact findNextJFIFHdr_fault_of_le _ _ _ (by rw [bigGapBuf_length]) (by omega)

/-- C15 fails on `bigGapBuf`: the markers at offsets 0 and `2^31` are consecutive, the
difference `2^31` stored in `int blocksize` becomes `-2^31`, the length passed to
`dispatchBlock` for this non-final block is `2^64 - 2^31` instead of `2^31`, and `remain`
goes from `2^31 + 4` to `2^32 + 4` instead of `4`. -/
theorem processBuf_bigGap_blocksize :
    MarkerAt bigGapBuf 0 ∧ MarkerAt bigGapBuf 2147483648 ∧
      (∀ q, 0 < q → q < 2147483648 → ¬ MarkerAt bigGapBuf q) ∧
      toInt32 ((2147483648 : Int) - 0) = -2147483648 ∧
      (processBuf bigGapBuf 0 bigGapBuf.length).calls.head? =
        some ⟨0, 18446744071562067968, 0⟩ ∧
      18446744071562067968 ≠ 2147483648 - 0 ∧
      processBufScans bigGapBuf 0 bigGapBuf.length =
        [(0, 2147483652), (2147483648, 4294967300)] ∧
      4294967300 ≠ 2147483652 - (2147483648 - 0) := by
  refine ⟨gapBuf_marker_zero _, gapBuf_marker_second 2147483644, bigGapBuf_no_marker_between,
    by decide, ?_, by decide, processBufScans_bigGapBuf, by decide⟩
  rw [processBuf_bigGapBuf]
  rfl

/-! ## Two markers `2^32` bytes apart -/

/-- The run of `processBuf` on two markers exactly `2^32` bytes apart: `int blocksize` is 0. -/
theorem processBuf_gapBuf_exact (g : Nat) (h : g + 4 = 4294967296) :
    processBuf (gapBuf g) 0 (gapBuf g).length = ⟨[⟨0, 0, 0⟩], Status.fault⟩ := by
  have hlen := gapBuf_length g
  have hN : (gapBuf g).length < SIZE_MOD := by
    rw [hlen]; simp only [SIZE_MOD]; omega
  have e1 : findNextJFIFHdr (gapBuf g) 0 (gapBuf g).length = Found.ptr 0 :=
    findNextJFIFHdr_eq_ptr _ 0 _ 0 hN (by omega) (Nat.le_refl _) (by omega)
      (gapBuf_marker_zero g) (by intro q _ h; omega)
  rw [processBuf_of_ptr _ _ 0 e1]
  have s1 : sizeSub (gapBuf g).length 0 = (gapBuf g).length := by
    rw [sizeSub_eq _ _ hN (by omega)]; omega
  have s2 : sizeSub (gapBuf g).length 4 = (gapBuf g).length - 4 := sizeSub_eq _ _ hN (by omega)
  have e2 : findNextJFIFHdr (gapBuf g) (0 + 4) ((gapBuf g).length - 4) = Found.ptr (g + 4) :=
    findNextJFIFHdr_eq_ptr _ _ _ _ (by omega) (by omega) (by omega) (by omega)
      (gapBuf_marker_second g)
      (by intro q q1 q2; exact gapBuf_no_marker_between g q (by omega) q2)
  rw [s1, s2, e2, processLoop_ptr _ _ _ _ _ _ (by omega)]
  have b1 : intToSize (toInt32 (((g + 4 : Nat) : Int) - ((0 : Nat) : Int))) = 0 := by
    simp only [intToSize, toInt32]
    omega
  have e3 : findNextJFIFHdr (gapBuf g) (g + 4 + 4) ((gapBuf g).length - 4) = Found.fault :=
    findNextJFIFHdr_fault_of_le _ _ _ (by omega) (by omega)
  rw [b1, s1, s2, e3, processLoop_fault _ _ _ _ _ (by omega)]

/-- Whatever the buffer, every block dispatched by the loop starts at a marker. -/
theorem processLoop_block_marker (mem : List Nat) :
    ∀ (fuel cur rem : Nat) (k : Int) (np : Found), MarkerAt mem cur →
      (∀ p, np = Found.ptr p → MarkerAt mem p) →
      ∀ c ∈ (processLoop mem fuel cur rem k np).calls, MarkerAt mem c.block := by
  intro fuel
  induction fuel with
  | zero => intro cur rem k np _ _ c hc; simp [processLoop] at hc
  | succ fuel ih =>
    intro cur rem k np hcur hnp c hc
    cases np with
    | ptr p =>
      rw [processLoop_ptr mem (fuel + 1) cur rem p k (by omega)] at hc
      simp only [List.mem_cons] at hc
      rcases hc with rfl | hc
      · exact hcur
      · exact ih p _ _ _ (hnp p rfl)
          (fun p' hp' => (findNextJFIFHdr_ptr_sound mem _ _ p' hp').2) c hc
    | null =>
      rw [processLoop_null mem (fuel + 1) cur rem k (by omega)] at hc
      simp only [List.mem_singleton] at hc
      subst hc
      exact hcur
    | fault =>
      rw [processLoop_fault mem (fuel + 1) cur rem k (by omega)] at hc
      simp at hc
    | nofuel => simp [processLoop] at hc

/-- Whatever the buffer, the first four bytes of every block dispatched by `processBuf` are
`FF D8 FF E1`. -/
theorem processBuf_block_marker (mem : List Nat) (bs : Nat) :
    ∀ c ∈ (processBuf mem 0 bs).calls, MarkerAt mem c.block := by
  intro c hc
  cases hf : findNextJFIFHdr mem 0 bs with
  | ptr p =>
    rw [processBuf_of_ptr _ _ p hf] at hc
    exact processLoop_block_marker mem _ _ _ _ _ (findNextJFIFHdr_ptr_sound mem _ _ p hf).2
      (fun p' hp' => (findNextJFIFHdr_ptr_sound mem _ _ p' hp').2) c hc
  | null => rw [processBuf_of_null _ _ hf] at hc; simp at hc
  | fault => unfold processBuf at hc; rw [hf] at hc; simp at hc
  | nofuel => unfold processBuf at hc; rw [hf] at hc; simp at hc

/-- C18 fails on `wideGapBuf`, two markers `2^32` bytes apart: the block dispatched for the
marker at offset 0 has length 0, the value of `int blocksize`, which is less than 4. -/
theorem processBuf_wideGap_length :
    MarkerAt wideGapBuf 0 ∧ MarkerAt wideGapBuf 4294967296 ∧
      (processBuf wideGapBuf 0 wideGapBuf.length).calls = [⟨0, 0, 0⟩] ∧
      ∃ c ∈ (processBuf wideGapBuf 0 wideGapBuf.length).calls, c.blksize < 4 := by
  have e : processBuf wideGapBuf 0 wideGapBuf.length = ⟨[⟨0, 0, 0⟩], Status.fault⟩ :=
    processBuf_gapBuf_exact 4294967292 (by omega)
  refine ⟨gapBuf_marker_zero _, gapBuf_marker_second 4294967292, by rw [e], ?_⟩
  rw [e]
  exact ⟨⟨0, 0, 0⟩, List.mem_singleton_self _, by decide⟩

/-! ## Files of one run -/

/-- A call of `dispatchBlock` creates no file but the one named after its block number, and
only in file-writing mode for a block number that passes the guard. -/
theorem dispatchBlock_creat_only (d v : Int) (env : Env) (b s : Nat) (k : Int)
    (name : List Char) (h : Effect.creat name ∈ dispatchBlock d v env b s k) :
    d = 0 ∧ k ≤ 99999999 ∧ name = fileName k := by
  unfold dispatchBlock at h
  by_cases hd : d = 0
  · by_cases hk : k ≤ 99999999
    · refine ⟨hd, hk, ?_⟩
      simp only [hd, ne_eq, not_true_eq_false, if_false, hk, if_true] at h
      by_cases hl : 16 < (fileName k).length + 1
      · simp [hl] at h
      · simp only [hl, if_false] at h
        by_cases hv : v > 0 <;> by_cases hfd : env.fd = 0 <;>
          by_cases hw : env.written < 0 <;>
          by_cases hsw : env.written.toNat < s <;>
          simp [hv, hfd, hw, hsw] at h <;> exact h
    · simp [hd, hk] at h
  · simp [hd] at h

/-- In file-writing mode, for a block number in `0 .. 99999999` and a descriptor other than 0
returned by `creat`, `dispatchBlock` writes the block to the file it created. -/
theorem dispatchBlock_writes (v : Int) (env : Env) (b s : Nat) (m : Int) (h0 : 0 ≤ m)
    (h1 : m ≤ 99999999) (hfd : env.fd ≠ 0) :
    Effect.write env.fd b s ∈ dispatchBlock 0 v env b s m := by
  have hl := fileName_length_le m h0 h1
  unfold dispatchBlock
  simp only [ne_eq, not_true_eq_false, if_false, h1, if_true]
  rw [if_neg (by omega)]
  simp [hfd]

/-- Whatever the buffer, the blocks dispatched by the loop are in strictly increasing order of
their offsets. -/
theorem processLoop_pairwise (mem : List Nat) :
    ∀ (fuel cur rem : Nat) (k : Int) (np : Found),
      (∀ p, np = Found.ptr p → cur < p) →
      List.Pairwise (fun a b : Call => a.block < b.block)
        (processLoop mem fuel cur rem k np).calls := by
  intro fuel
  induction fuel with
  | zero => intro cur rem k np _; simp [processLoop]
  | succ fuel ih =>
    intro cur rem k np hnp
    cases np with
    | ptr p =>
      rw [processLoop_ptr mem (fuel + 1) cur rem p k (by omega), List.pairwise_cons]
      have hp := hnp p rfl
      have hnext : ∀ p', findNextJFIFHdr mem (p + 4)
          (sizeSub (sizeSub rem (intToSize (toInt32 ((p : Int) - (cur : Int))))) 4) =
            Found.ptr p' → p < p' := by
        intro p' hp'
        have := (findNextJFIFHdr_ptr_sound mem _ _ p' hp').1
        omega
      constructor
      · intro c hc
        have := processLoop_block_ge mem _ _ _ _ _
          (fun p' hp' => Nat.le_of_lt (hnext p' hp')) c hc
        show cur < c.block
        omega
      · exact ih p _ _ _ hnext
    | null =>
      rw [processLoop_null mem (fuel + 1) cur rem k (by omega)]
      exact List.pairwise_singleton _ _
    | fault =>
      rw [processLoop_fault mem (fuel + 1) cur rem k (by omega)]
      exact List.Pairwise.nil
    | nofuel => simp [processLoop]

/-- Whatever the buffer, `processBuf` dispatches its blocks in strictly increasing order of
their offsets: two different calls are about two different blocks. -/
theorem processBuf_pairwise (mem : List Nat) (bs : Nat) :
    List.Pairwise (fun a b : Call => a.block < b.block) (processBuf mem 0 bs).calls := by
  cases hf : findNextJFIFHdr mem 0 bs with
  | ptr p =>
    rw [processBuf_of_ptr _ _ p hf]
    exact processLoop_pairwise mem _ _ _ _ _ (fun p' hp' => by
      have := (findNextJFIFHdr_ptr_sound mem _ _ p' hp').1
      omega)
  | null => rw [processBuf_of_null _ _ hf]; exact List.Pairwise.nil
  | fault => unfold processBuf; rw [hf]; exact List.Pairwise.nil
  | nofuel => unfold processBuf; rw [hf]; exact List.Pairwise.nil

/-- On a buffer shorter than `2^31` bytes no file is created by two different calls of one
run: if the calls number `i` and `j ≠ i` of `processBuf` both reach `creat`, in file-writing
mode, the two names differ. -/
theorem processBuf_small_no_overwrite (mem : List Nat) (hN : mem.length < 2147483648)
    (i j : Nat) (ci cj : Call) (hij : i ≠ j)
    (hi : (processBuf mem 0 mem.length).calls[i]? = some ci)
    (hj : (processBuf mem 0 mem.length).calls[j]? = some cj)
    (d v d' v' : Int) (env env' : Env) (name name' : List Char)
    (h : Effect.creat name ∈ dispatchBlock d v env ci.block ci.blksize ci.blknum)
    (h' : Effect.creat name' ∈ dispatchBlock d' v' env' cj.block cj.blksize cj.blknum) :
    name ≠ name' := by
  obtain ⟨_, _, _, _, _, _, _, hnum⟩ := processBuf_small mem hN _ rfl
  have ei := hnum i ci hi
  have ej := hnum j cj hj
  obtain ⟨_, hk, hname⟩ := dispatchBlock_creat_only _ _ _ _ _ _ _ h
  obtain ⟨_, hk', hname'⟩ := dispatchBlock_creat_only _ _ _ _ _ _ _ h'
  rw [hname, hname', ei, ej]
  rw [ei] at hk
  rw [ej] at hk'
  exact (fileName_injective (i : Int) (j : Int) (by omega) hk (by omega) hk' (by omega)).1

/-- C19 fails on `2^32 + 1` adjacent markers (`N = 2^34 + 4` bytes): the calls number 0 and
number `2^32` of one run of `processBuf` are about two different blocks and both carry the
block number 0, the `int found_count` having gone once round; in file-writing mode both
create the file `fnd00000.jpg`, and both write their block to it when `creat` answers a
descriptor other than 0, so the later block overwrites the file of the earlier one. -/
theorem processBuf_manyMarkers_overwrite :
    fileName 0 = String.toList "fnd00000.jpg" ∧
      ∃ c0 c1,
        (processBuf (manyMarkers 4294967297) 0 (manyMarkers 4294967297).length).calls[0]? =
            some c0 ∧
          (processBuf (manyMarkers 4294967297) 0
              (manyMarkers 4294967297).length).calls[4294967296]? = some c1 ∧
          c0.block < c1.block ∧ c0.blknum = 0 ∧ c1.blknum = 0 ∧
          ∀ (v : Int) (env : Env),
            Effect.creat (fileName 0) ∈
                dispatchBlock 0 v env c0.block c0.blksize c0.blknum ∧
              Effect.creat (fileName 0) ∈
                dispatchBlock 0 v env c1.block c1.blksize c1.blknum ∧
              (env.fd ≠ 0 →
                Effect.write env.fd c0.block c0.blksize ∈
                    dispatchBlock 0 v env c0.block c0.blksize c0.blknum ∧
                  Effect.write env.fd c1.block c1.blksize ∈
                    dispatchBlock 0 v env c1.block c1.blksize c1.blknum) := by
  have hl := processBuf_manyMarkers_length 4294967297 (by omega)
    (by simp only [SIZE_MOD]; omega)
  have h0 : 0 <
      (processBuf (manyMarkers 4294967297) 0 (manyMarkers 4294967297).length).calls.length := by
    rw [hl]; omega
  have h1 : 4294967296 <
      (processBuf (manyMarkers 4294967297) 0 (manyMarkers 4294967297).length).calls.length := by
    rw [hl]; omega
  have b0 := processBuf_blknum _ _ 0 _ (List.getElem?_eq_getElem h0)
  have b1 := processBuf_blknum _ _ 4294967296 _ (List.getElem?_eq_getElem h1)
  have t0 : toInt32 ((0 : Nat) : Int) = 0 := by decide
  have t1 : toInt32 ((4294967296 : Nat) : Int) = 0 := by decide
  rw [t0] at b0
  rw [t1] at b1
  have hlt := List.pairwise_iff_getElem.mp
    (processBuf_pairwise (manyMarkers 4294967297) (manyMarkers 4294967297).length)
    0 4294967296 h0 h1 (by omega)
  refine ⟨by decide, _, _, List.getElem?_eq_getElem h0, List.getElem?_eq_getElem h1, hlt,
    b0, b1, ?_⟩
  intro v env
  rw [b0, b1]
  exact ⟨dispatchBlock_creates v env _ _ 0 (by decide) (by decide),
    dispatchBlock_creates v env _ _ 0 (by decide) (by decide),
    fun hfd => ⟨dispatchBlock_writes v env _ _ 0 (by decide) (by decide) hfd,
      dispatchBlock_writes v env _ _ 0 (by decide) (by decide) hfd⟩⟩

end JfifExtract
